import Mathlib

/-!
Verification of the `minefield` crate (minesweeper logic core).

This file shallowly embeds `src/lib.rs` of the `minefield` repository into
Lean.  Machine integers (`u16`, `u8`) are modelled as `Nat`; every bit
operation of the source (`|=`, `&`, nibble masks) is kept as the
corresponding `Nat` bitwise operation.  The render sink (`trait WR`) is an
external collaborator: operations that only call into it (`refresh`, the
glyph map `c`) have no effect on game state and are dropped; `tick`,
`reset_tick` and `ending` are kept as their pure state transformations.
The `rand::thread_rng` shuffle in `start` is modelled by passing the
shuffled index list as an explicit parameter `p`; a side condition
`PermOf` states that `p` is a permutation of `0 .. w*h`, which is exactly
what `shuffle` produces.
-/

namespace Minefield

/-- Cell byte helper, from `set_e` in lib.rs: set the force-opened flag. -/
def set_e (u : Nat) : Nat := u ||| 0x80

/-- Cell byte helper, from `is_e` in lib.rs: test the force-opened flag. -/
def is_e (u : Nat) : Bool := u &&& 0x80 != 0

/-- Cell byte helper, from `is_o` in lib.rs: test the opened flag. -/
def is_o (u : Nat) : Bool := u &&& 0x10 != 0

/-- Cell byte helper, from `set_o` in lib.rs: mark opened; when `e` is true
and the cell was closed, also mark it force-opened (end-of-game reveal). -/
def set_o (u : Nat) (e : Bool) : Nat :=
  (if e && !(is_o u) then set_e u else u) ||| 0x10

/-- Cell byte helper, from `set_m` in lib.rs: overwrite the byte with the
mine value `0x0f`. -/
def set_m (_u : Nat) : Nat := 0x0f

/-- Cell byte helper, from `is_mine` in lib.rs: the byte equals `0x0f`. -/
def is_mine (u : Nat) : Bool := u == 0x0f

/-- Cell byte helper, from `get_v` in lib.rs: the lower nibble. -/
def get_v (u : Nat) : Nat := u &&& 0x0f

/-- Read grid cell `(r, c)`; out-of-range access (a panic in Rust, a
programming error per the spec) yields 0. -/
def gget (f : List (List Nat)) (r c : Nat) : Nat := (f.getD r []).getD c 0

/-- Write grid cell `(r, c)`; out-of-range writes are dropped (Rust would
panic; such calls never happen on in-range cursors). -/
def gset (f : List (List Nat)) (r c v : Nat) : List (List Nat) :=
  f.set r ((f.getD r []).set c v)

/-- The `MineField` struct from lib.rs.  `ms` (the idle `Duration` hint) is
kept as its millisecond count. -/
structure MineField where
  s : Nat
  w : Nat
  h : Nat
  m : Nat
  f : List (List Nat)
  r : Nat
  c : Nat
  ms : Nat
  b : Nat
  t : Nat
deriving DecidableEq

/-- Constructor `MineField::new`: all-closed grid, cursor at the origin,
blink period 80, tick counter 0. -/
def MineField.new (w h m : Nat) : MineField :=
  { s := 0, w := w, h := h, m := m,
    f := List.replicate h (List.replicate w 0),
    r := 0, c := 0, ms := 10, b := 80, t := 0 }

/-- From `is_blink` in lib.rs. -/
def MineField.is_blink (mf : MineField) : Bool := decide (mf.t < mf.b / 2)

/-- From `tick` in lib.rs, with the two `refresh` render calls dropped:
increment `t`; at `b/2` keep it (and re-render); at `≥ b` reset to 0 via
`reset_tick` (and re-render). -/
def MineField.tick (mf : MineField) : MineField :=
  let t1 := mf.t + 1
  if t1 = mf.b / 2 then { mf with t := t1 }
  else if t1 ≥ mf.b then { mf with t := 0 }
  else { mf with t := t1 }

/-- From `up` in lib.rs. -/
def MineField.up (mf : MineField) : MineField :=
  if mf.r > 0 then { mf with r := mf.r - 1 } else mf

/-- From `down` in lib.rs. -/
def MineField.down (mf : MineField) : MineField :=
  if mf.r < mf.h - 1 then { mf with r := mf.r + 1 } else mf

/-- From `left` in lib.rs. -/
def MineField.left (mf : MineField) : MineField :=
  if mf.c > 0 then { mf with c := mf.c - 1 } else mf

/-- From `right` in lib.rs. -/
def MineField.right (mf : MineField) : MineField :=
  if mf.c < mf.w - 1 then { mf with c := mf.c + 1 } else mf

/-- From `update_m` in lib.rs: absolute cursor set with bounds check. -/
def MineField.update_m (mf : MineField) (x y : Nat) : Bool × MineField :=
  if x < mf.w ∧ y < mf.h then (true, { mf with c := x, r := y }) else (false, mf)

/-- From `is_opened` in lib.rs. -/
def MineField.is_opened (mf : MineField) (r c : Nat) : Bool := is_o (gget mf.f r c)

/-- From `is_explosion` in lib.rs. -/
def MineField.is_explosion (mf : MineField) : Bool := mf.s &&& 0x8000 != 0

/-- From `explosion` in lib.rs. -/
def MineField.explosion (mf : MineField) : MineField := { mf with s := mf.s ||| 0x8000 }

/-- From `is_success` in lib.rs. -/
def MineField.is_success (mf : MineField) : Bool := mf.s &&& 0x4000 != 0

/-- From `success` in lib.rs. -/
def MineField.success (mf : MineField) : MineField := { mf with s := mf.s ||| 0x4000 }

/-- From `is_end` in lib.rs. -/
def MineField.is_end (mf : MineField) : Bool := decide (mf.s ≥ 0x4000)

/-- From `ending` in lib.rs (the `refresh` call dropped): force-open every
cell of the grid. -/
def MineField.ending (mf : MineField) : MineField :=
  { mf with f := mf.f.map (fun v => v.map (fun u => set_o u true)) }

/-- The clipped index rectangle walked by the two nested `for` loops that
appear identically in `open` and in `get_k`:
rows `rs..=re`, columns `cs..=ce`, skipping the center `(r, c)`. -/
def nbrs (w h r c : Nat) : List (Nat × Nat) :=
  let rs := if r > 0 then r - 1 else r
  let re := if r < h - 1 then r + 1 else r
  let cs := if c > 0 then c - 1 else c
  let ce := if c < w - 1 then c + 1 else c
  ((List.range (re + 1 - rs)).map (fun j => j + rs)).flatMap (fun j =>
    ((List.range (ce + 1 - cs)).map (fun i => i + cs)).filterMap (fun i =>
      if j = r ∧ i = c then none else some (j, i)))

/-- From `get_k` in lib.rs: count the mine bytes among the clipped
8-neighborhood of `(r, c)` in grid `f`. -/
def get_k (w h : Nat) (f : List (List Nat)) (r c : Nat) : Nat :=
  ((nbrs w h r c).filter (fun ji => is_mine (gget f ji.1 ji.2))).length

/-- Number of closed cells of the grid; used only as recursion fuel for the
flood fill (each recursive `open` call strictly decreases it). -/
def unopenedCnt (mf : MineField) : Nat :=
  (mf.f.map (fun row => row.countP (fun u => !(is_o u)))).sum

/-- From `open` in lib.rs, with the recursion made explicit by fuel: if the
target is a mine return `false`; else mark it opened, increment `s`, and if
its value is 0 recursively open every not-yet-opened cell of the clipped
8-neighborhood (the recursive calls discard their return value). -/
def openF : Nat → MineField → Nat → Nat → Bool × MineField
  | 0, mf, _, _ => (true, mf)
  | fuel + 1, mf, r, c =>
    let u := gget mf.f r c
    let v := get_v u
    if is_mine v then (false, mf)
    else
      let mf1 : MineField := { mf with f := gset mf.f r c (set_o u false), s := mf.s + 1 }
      if v = 0 then
        (true, (nbrs mf.w mf.h r c).foldl (fun acc ji =>
          if acc.is_opened ji.1 ji.2 then acc else (openF fuel acc ji.1 ji.2).2) mf1)
      else (true, mf1)

/-- The `open` method of lib.rs (named `openCell` because `open` is a Lean
keyword).  The fuel `unopenedCnt mf + 1` is enough for the recursion never
to bottom out, because each nested call targets a closed cell and opens it
first (see `openF_count`: opening pairs each recursive step
with one closed cell becoming opened). -/
def MineField.openCell (mf : MineField) (r c : Nat) : Bool × MineField :=
  openF (unopenedCnt mf + 1) mf r c

/-- One iteration of the flood-fill neighbor loop (the body of the `foldl`
in `openF`), named so the loop can be reasoned about. -/
def openStep (fuel : Nat) (acc : MineField) (ji : Nat × Nat) : MineField :=
  if acc.is_opened ji.1 ji.2 then acc else (openF fuel acc ji.1 ji.2).2

/-- The placement loop inside `start` in lib.rs: walk the shuffled index
list (at most `m + 1` entries, see `MineField.start`), decoding each index
`q` as row `q / w`, column `q % w`, and overwrite that cell with the mine
byte unless it is the excluded cursor cell `(cr, cc)` (no exclusion when
`e`); stop as soon as `n` reaches `m`. -/
def placeList (e : Bool) (w m cr cc : Nat) : List Nat → Nat → List (List Nat) → List (List Nat)
  | [], _, f => f
  | q :: rest, n, f =>
    if n ≥ m then f
    else
      let r := q / w
      let c := q % w
      if e || !(r == cr) || !(c == cc) then
        placeList e w m cr cc rest (n + 1) (gset f r c (set_m (gget f r c)))
      else
        placeList e w m cr cc rest n f

/-- The second pass of `start` in lib.rs: over a clone `f` of the
just-mined grid, overwrite every non-mine byte with its `get_k` count. -/
def computeCounts (w h : Nat) (f : List (List Nat)) : List (List Nat) :=
  f.mapIdx (fun r v => v.mapIdx (fun c u =>
    if is_mine (gget f r c) then u else get_k w h f r c))

/-- From `start` in lib.rs.  The `thread_rng` shuffle is modelled by taking
the shuffled list `p` as a parameter.  The Rust loop `for i in 0..=m` with
its `i >= p.len()` break inspects at most the first `m + 1` entries of `p`,
hence `p.take (m + 1)`. -/
def MineField.start (mf : MineField) (p : List Nat) : MineField :=
  let e : Bool := decide (mf.m ≥ mf.w * mf.h)
  let f1 := placeList e mf.w mf.m mf.r mf.c (p.take (mf.m + 1)) 0 mf.f
  { mf with f := computeCounts mf.w mf.h f1 }

/-- The body of `click` in lib.rs after the first-time `start` call: if the
cursor cell is not yet opened, open it — on failure (mine) set `exploded`,
on success set `succeeded` when `s + m == w*h`.  Always returns `true`. -/
def MineField.clickAfterStart (mf : MineField) : Bool × MineField :=
  if !(mf.is_opened mf.r mf.c) then
    if !(mf.openCell mf.r mf.c).1 then (true, (mf.openCell mf.r mf.c).2.explosion)
    else if (mf.openCell mf.r mf.c).2.s + (mf.openCell mf.r mf.c).2.m ==
        (mf.openCell mf.r mf.c).2.w * (mf.openCell mf.r mf.c).2.h then
      (true, (mf.openCell mf.r mf.c).2.success)
    else (true, (mf.openCell mf.r mf.c).2)
  else (true, mf)

/-- From `click` in lib.rs: place mines on the very first call (`s == 0`),
then run the reveal body. -/
def MineField.click (mf : MineField) (p : List Nat) : Bool × MineField :=
  (if mf.s == 0 then mf.start p else mf).clickAfterStart

/-- The openedCount of the spec: the counter packed in the low 14 bits of
the status word `s` (below the `succeeded` bit 0x4000). -/
def openedCount (mf : MineField) : Nat := mf.s % 0x4000

/-- Number of grid cells that are opened and not mine-valued. -/
def openedNonMine (mf : MineField) : Nat :=
  (mf.f.map (fun row => row.countP (fun u => is_o u && !(get_v u == 0x0f)))).sum

/-- Number of mine-valued cells of the grid. -/
def mineCnt (mf : MineField) : Nat :=
  (mf.f.map (fun row => row.countP (fun u => get_v u == 0x0f))).sum

/-- Every cell of the grid is opened. -/
def allOpened (mf : MineField) : Prop :=
  ∀ row ∈ mf.f, ∀ u ∈ row, is_o u = true

/-- Number of grid cells whose byte satisfies `p`. -/
def gridCountP (p : Nat → Bool) (f : List (List Nat)) : Nat :=
  (f.map (fun row => row.countP p)).sum

/-- Modelled from the spec's words, independently of `get_k`: the exact
number of mine-valued cells among the up-to-8 neighbors of `(r, c)` — the
board cells other than `(r, c)` whose row and column each differ from
`(r, c)`'s by at most one, the neighborhood clipped (not wrapped) at the
board edges because only in-range rows and columns are scanned. -/
def adjMineCount (mf : MineField) (r c : Nat) : Nat :=
  ((List.range mf.h).map (fun a =>
    ((List.range mf.w).filter (fun b =>
      (!((a == r) && (b == c))) && decide (a ≤ r + 1) && decide (r ≤ a + 1) &&
      decide (b ≤ c + 1) && decide (c ≤ b + 1) &&
      (get_v (gget mf.f a b) == 0x0f))).length)).sum

/-- The list `p` fed to `start` is a permutation of the cell indices
`0 .. w*h`, as produced by `shuffle` on `(0..w*h).collect()`. -/
def PermOf (mf : MineField) (p : List Nat) : Prop :=
  p.Nodup ∧ p.length = mf.w * mf.h ∧ ∀ x ∈ p, x < mf.w * mf.h

/-- The grid really is `h` rows of `w` cells (true of every board the
constructor can produce, and preserved by every operation). -/
def WFGrid (w h : Nat) (f : List (List Nat)) : Prop :=
  f.length = h ∧ ∀ row ∈ f, row.length = w

/-- The indices that the placement loop `placeList` actually turns into
mines: the eligible entries (excluded cursor cell dropped unless `e`),
cut off once `m - n` mines have been placed. -/
def chosen (e : Bool) (w m cr cc : Nat) (l : List Nat) (n : Nat) : List Nat :=
  (l.filter (fun q => e || !(q / w == cr) || !(q % w == cc))).take (m - n)

/-- Status word with `openedCount` `k`, `succeeded` flag `su` (bit 0x4000)
and `exploded` flag `ex` (bit 0x8000), as packed by lib.rs. -/
def statOf (k : Nat) (su ex : Bool) : Nat :=
  k + su.toNat * 0x4000 + ex.toNat * 0x8000

/-- Byte predicate: opened and not mine-valued (what `openedCount` counts). -/
def ponB (u : Nat) : Bool := is_o u && !(get_v u == 0x0f)

/-- Byte predicate: still closed. -/
def pnoB (u : Nat) : Bool := !(is_o u)

/-- Relation between a state and any state the flood fill can turn it into:
the board geometry, cursor, mine count and timers are untouched; the status
word only grows; every cell byte is either unchanged or was a closed
non-mine byte that got its opened flag set. -/
def OpenRel (mf mf' : MineField) : Prop :=
  mf'.w = mf.w ∧ mf'.h = mf.h ∧ mf'.m = mf.m ∧ mf'.r = mf.r ∧ mf'.c = mf.c ∧
  mf'.b = mf.b ∧ mf'.t = mf.t ∧ mf'.ms = mf.ms ∧ mf.s ≤ mf'.s ∧
  mf'.f.length = mf.f.length ∧ (∀ j, (mf'.f.getD j []).length = (mf.f.getD j []).length) ∧
  (∀ j i, gget mf'.f j i = gget mf.f j i ∨
    (is_o (gget mf.f j i) = false ∧ get_v (gget mf.f j i) ≠ 0x0f ∧
      gget mf'.f j i = set_o (gget mf.f j i) false))

/-- Transitive closure of the flood-fill step relation on cells: `(j, i)` is
reachable from `(r, c)` through a chain whose every intermediate cell has
value 0 (moves go to the clipped 8-neighborhood). Its closure is exactly the
connected zero-region of `(r, c)` together with its bordering cells. -/
inductive ZReach (w h : Nat) (V : Nat → Nat → Nat) (r c : Nat) : Nat → Nat → Prop
  | refl : ZReach w h V r c r c
  | step : ∀ j i j' i', ZReach w h V r c j i → V j i = 0 →
      (j', i') ∈ nbrs w h j i → ZReach w h V r c j' i'

/-- Flood invariant with an exception set `S`: every in-range opened cell
of value 0 has each of its non-mine neighbors opened, except possibly the
pairs listed in `S`. -/
abbrev FloodInvE (mf : MineField) (S : Nat → Nat → Nat → Nat → Prop) : Prop :=
  ∀ j, j < mf.h → ∀ i, i < mf.w → is_o (gget mf.f j i) = true →
    get_v (gget mf.f j i) = 0 →
    ∀ q ∈ nbrs mf.w mf.h j i, get_v (gget mf.f q.1 q.2) ≠ 0x0f →
      is_o (gget mf.f q.1 q.2) = true ∨ S j i q.1 q.2

/-- Flood invariant: every in-range opened zero-valued cell has all of its
non-mine neighbors opened.  Boards reached by play satisfy it, because a
zero cell is only ever opened together with its whole neighborhood. -/
abbrev FloodInv (mf : MineField) : Prop := FloodInvE mf (fun _ _ _ _ => False)

/-- States reachable from a constructor call through the public operations.
The flag chooses whether the end-of-game `ending` is among the allowed
operations.  The constructor arguments are constrained only to positive
dimensions, the spec's data model; in particular boards large enough for
the packed counter to carry into the flag bits are reachable. -/
inductive Reach : Bool → MineField → Prop
  | init : ∀ (b : Bool) (w h m : Nat), 0 < w → 0 < h →
      Reach b (MineField.new w h m)
  | click : ∀ (b : Bool) (mf : MineField) (p : List Nat), Reach b mf → PermOf mf p →
      Reach b (mf.click p).2
  | up : ∀ (b : Bool) (mf : MineField), Reach b mf → Reach b mf.up
  | down : ∀ (b : Bool) (mf : MineField), Reach b mf → Reach b mf.down
  | left : ∀ (b : Bool) (mf : MineField), Reach b mf → Reach b mf.left
  | right : ∀ (b : Bool) (mf : MineField), Reach b mf → Reach b mf.right
  | tick : ∀ (b : Bool) (mf : MineField), Reach b mf → Reach b mf.tick
  | update_m : ∀ (b : Bool) (mf : MineField) (x y : Nat), Reach b mf →
      Reach b (mf.update_m x y).2
  | ending : ∀ (mf : MineField), Reach true mf → Reach true mf.ending

/-- The inductive invariant of reachable states: sane geometry, cursor in
range, and a status word that splits into a counter below the flag bits
plus the two flags, the counter agreeing with the number of opened non-mine
cells (after an `ending`, allowed only when the flag is `true`, the counter
may fall behind, but every cell is opened). -/
def Inv (b : Bool) (mf : MineField) : Prop :=
  0 < mf.w ∧ 0 < mf.h ∧ mf.w * mf.h < 0x4000 ∧
  WFGrid mf.w mf.h mf.f ∧ mf.r < mf.h ∧ mf.c < mf.w ∧
  ∃ (k : Nat) (su ex : Bool), mf.s = statOf k su ex ∧ k ≤ mf.w * mf.h ∧
    (k = gridCountP ponB mf.f ∨
      (b = true ∧ ∀ j i, j < mf.h → i < mf.w → is_o (gget mf.f j i) = true))

/-- The geometric invariant of reachable states, independent of board
size: positive dimensions, a well-formed grid, and an in-range cursor. -/
def GInv (mf : MineField) : Prop :=
  0 < mf.w ∧ 0 < mf.h ∧ WFGrid mf.w mf.h mf.f ∧ mf.r < mf.h ∧ mf.c < mf.w

/-! Bit-level helpers about the packed status word. -/

/-- Adding a fresh power of two to a smaller number sets exactly that bit. -/
theorem testBit_add_two_pow {a : Nat} (n : Nat) (h : a < 2 ^ n) (i : Nat) :
    (a + 2 ^ n).testBit i = (a.testBit i || decide (i = n)) := by
  rcases lt_trichotomy i n with hi | hi | hi
  · have hne : ¬ i = n := by omega
    rw [Nat.testBit_to_div_mod, Nat.testBit_to_div_mod]
    have hsplit : 2 ^ n = 2 ^ i * (2 * 2 ^ (n - i - 1)) := by
      rw [← pow_succ']
      rw [← pow_add]
      congr 1
      omega
    rw [hsplit, Nat.add_mul_div_left _ _ (Nat.pos_pow_of_pos i (by omega))]
    rw [Nat.add_mul_mod_self_left]
    simp [hne]
  · subst hi
    have h1 : (a + 2 ^ i) / 2 ^ i = 1 := by
      rw [Nat.add_div_right _ (Nat.pos_pow_of_pos i (by omega))]
      rw [Nat.div_eq_of_lt h]
    rw [Nat.testBit_to_div_mod, h1]
    rw [Nat.testBit_eq_false_of_lt h]
    simp
  · have hne : ¬ i = n := by omega
    have hlt : a + 2 ^ n < 2 ^ i := by
      have h1 : a + 2 ^ n < 2 ^ (n + 1) := by
        have := Nat.pow_lt_pow_right (a := 2) (by omega) (show n < n + 1 by omega)
        omega
      exact lt_of_lt_of_le h1 (Nat.pow_le_pow_right (by omega) (by omega))
    rw [Nat.testBit_eq_false_of_lt hlt]
    rw [Nat.testBit_eq_false_of_lt (lt_trans h (Nat.pow_lt_pow_right (by omega) hi))]
    simp [hne]

/-- Or-ing a fresh power of two into a smaller number adds it. -/
theorem or_two_pow {a : Nat} (n : Nat) (h : a < 2 ^ n) : a ||| 2 ^ n = a + 2 ^ n := by
  apply Nat.eq_of_testBit_eq
  intro i
  rw [Nat.testBit_lor, testBit_add_two_pow n h i, Nat.testBit_two_pow]
  rcases eq_or_ne i n with hi | hi
  · simp [hi]
  · simp [hi, Ne.symm hi]

theorem stat_testBit {k : Nat} (hk : k < 0x4000) (su ex : Bool) (i : Nat) :
    (statOf k su ex).testBit i =
      (k.testBit i || (su && decide (i = 14)) || (ex && decide (i = 15))) := by
  have hp14 : k < 2 ^ 14 := by norm_num; omega
  have hp15 : k + 2 ^ 14 < 2 ^ 15 := by norm_num; omega
  cases ex <;> cases su <;>
    simp only [statOf, Bool.toNat_true, Bool.toNat_false]
  · simp
  · rw [show k + 1 * 0x4000 + 0 * 0x8000 = k + 2 ^ 14 by norm_num]
    rw [testBit_add_two_pow 14 hp14 i]
    simp
  · rw [show k + 0 * 0x4000 + 1 * 0x8000 = k + 2 ^ 15 by norm_num]
    rw [testBit_add_two_pow 15 (by norm_num; omega) i]
    simp
  · rw [show k + 1 * 0x4000 + 1 * 0x8000 = (k + 2 ^ 14) + 2 ^ 15 by norm_num]
    rw [testBit_add_two_pow 15 hp15 i, testBit_add_two_pow 14 hp14 i]
    simp

theorem stat_lor_expl {k : Nat} (hk : k < 0x4000) (su ex : Bool) :
    statOf k su ex ||| 0x8000 = statOf k su true := by
  apply Nat.eq_of_testBit_eq
  intro i
  rw [Nat.testBit_lor, stat_testBit hk su ex i, stat_testBit hk su true i]
  rw [show (0x8000 : Nat) = 2 ^ 15 by norm_num, Nat.testBit_two_pow]
  rcases eq_or_ne i 15 with hi | hi
  · simp [hi]
  · simp [hi, Ne.symm hi]

theorem stat_lor_succ {k : Nat} (hk : k < 0x4000) (su ex : Bool) :
    statOf k su ex ||| 0x4000 = statOf k true ex := by
  apply Nat.eq_of_testBit_eq
  intro i
  rw [Nat.testBit_lor, stat_testBit hk su ex i, stat_testBit hk true ex i]
  rw [show (0x4000 : Nat) = 2 ^ 14 by norm_num, Nat.testBit_two_pow]
  rcases eq_or_ne i 14 with hi | hi
  · simp [hi]
  · simp [hi, Ne.symm hi]

theorem stat_land_expl {k : Nat} (hk : k < 0x4000) (su ex : Bool) :
    statOf k su ex &&& 0x8000 = ex.toNat * 0x8000 := by
  rw [show (0x8000 : Nat) = 2 ^ 15 by norm_num, Nat.and_two_pow]
  rw [stat_testBit hk su ex 15]
  rw [Nat.testBit_eq_false_of_lt (show k < 2 ^ 15 by omega)]
  cases su <;> cases ex <;> simp

theorem stat_land_succ {k : Nat} (hk : k < 0x4000) (su ex : Bool) :
    statOf k su ex &&& 0x4000 = su.toNat * 0x4000 := by
  rw [show (0x4000 : Nat) = 2 ^ 14 by norm_num, Nat.and_two_pow]
  rw [stat_testBit hk su ex 14]
  rw [Nat.testBit_eq_false_of_lt (show k < 2 ^ 14 by omega)]
  cases su <;> cases ex <;> simp

theorem stat_mod {k : Nat} (hk : k < 0x4000) (su ex : Bool) :
    statOf k su ex % 0x4000 = k := by
  cases su <;> cases ex <;> simp [statOf, Bool.toNat] <;> omega

theorem stat_succ_one {k : Nat} (su ex : Bool) :
    statOf k su ex + 1 = statOf (k + 1) su ex := by
  simp [statOf]
  omega

/-! Cell byte lemmas. -/

theorem and_mask15 (u : Nat) : u &&& 0x0f = u % 16 := by
  have h := Nat.and_pow_two_sub_one_eq_mod u 4
  norm_num at h
  exact h

theorem get_v_eq_mod (u : Nat) : get_v u = u % 16 := and_mask15 u

theorem get_v_small {u : Nat} (h : u < 16) : get_v u = u := by
  rw [get_v_eq_mod]
  omega

theorem get_v_lt (u : Nat) : get_v u < 16 := by
  rw [get_v_eq_mod]
  omega

theorem is_o_testBit (u : Nat) : is_o u = u.testBit 4 := by
  unfold is_o
  rw [show (0x10 : Nat) = 2 ^ 4 from rfl, Nat.and_two_pow]
  cases h : u.testBit 4 <;> simp [h]

theorem is_o_small {u : Nat} (h : u < 16) : is_o u = false := by
  rw [is_o_testBit]
  exact Nat.testBit_eq_false_of_lt h

theorem lor_self_bit {u : Nat} {n : Nat} (h : u.testBit n = true) : u ||| 2 ^ n = u := by
  apply Nat.eq_of_testBit_eq
  intro i
  rw [Nat.testBit_lor, Nat.testBit_two_pow]
  rcases eq_or_ne n i with hi | hi
  · subst hi
    simp [h]
  · simp [hi]

theorem get_v_set_o (u : Nat) (e : Bool) : get_v (set_o u e) = get_v u := by
  unfold get_v set_o set_e
  split
  · rw [Nat.and_distrib_right, Nat.and_distrib_right,
      show (0x80 &&& 0x0f : Nat) = 0 from rfl, show (0x10 &&& 0x0f : Nat) = 0 from rfl,
      Nat.or_zero, Nat.or_zero]
  · rw [Nat.and_distrib_right, show (0x10 &&& 0x0f : Nat) = 0 from rfl, Nat.or_zero]

theorem is_o_set_o (u : Nat) (e : Bool) : is_o (set_o u e) = true := by
  unfold set_o
  rw [is_o_testBit, show (0x10 : Nat) = 2 ^ 4 from rfl, Nat.testBit_lor,
    Nat.testBit_two_pow_self]
  simp

theorem set_o_opened {u : Nat} (h : is_o u = true) (e : Bool) : set_o u e = u := by
  unfold set_o
  rw [h]
  have ht : u.testBit 4 = true := by rw [← is_o_testBit]; exact h
  have := lor_self_bit ht
  simp only [Bool.not_true, Bool.and_false, if_false]
  exact this

theorem set_o_false_eq (u : Nat) : set_o u false = u ||| 0x10 := by
  unfold set_o
  simp

/-! Grid access lemmas. -/

theorem getD_set_self {α : Type} {l : List α} {i : Nat} {a d : α} (h : i < l.length) :
    (l.set i a).getD i d = a := by
  rw [List.getD_eq_getElem?_getD, List.getElem?_set]
  simp [h]

theorem getD_set_ne {α : Type} {l : List α} {i j : Nat} (a : α) {d : α} (h : i ≠ j) :
    (l.set i a).getD j d = l.getD j d := by
  rw [List.getD_eq_getElem?_getD, List.getElem?_set, List.getD_eq_getElem?_getD]
  simp [h]

theorem row_len {w h : Nat} {f : List (List Nat)} (hw : WFGrid w h f) {r : Nat} (hr : r < h) :
    (f.getD r []).length = w := by
  have hlen : r < f.length := by rw [hw.1]; exact hr
  rw [List.getD_eq_getElem?_getD, List.getElem?_eq_getElem hlen]
  exact hw.2 _ (f.getElem_mem hlen)

theorem gget_gset_self {w h : Nat} {f : List (List Nat)} (hw : WFGrid w h f)
    {r c : Nat} (hr : r < h) (hc : c < w) (v : Nat) :
    gget (gset f r c v) r c = v := by
  unfold gget gset
  rw [getD_set_self (by rw [hw.1]; exact hr)]
  rw [getD_set_self (by rw [row_len hw hr]; exact hc)]

theorem gget_gset_ne {f : List (List Nat)} {r c j i : Nat} (hne : r ≠ j ∨ c ≠ i) (v : Nat) :
    gget (gset f r c v) j i = gget f j i := by
  unfold gget gset
  rcases hne with hne | hne
  · rw [getD_set_ne _ hne]
  · rcases eq_or_ne r j with hr | hr
    · subst hr
      rcases Nat.lt_or_ge r f.length with hlt | hge
      · rw [getD_set_self hlt, getD_set_ne _ hne]
      · rw [List.set_eq_of_length_le hge]
    · rw [getD_set_ne _ hr]

theorem WFGrid_gset {w h : Nat} {f : List (List Nat)} (hw : WFGrid w h f)
    (r c v : Nat) : WFGrid w h (gset f r c v) := by
  rcases Nat.lt_or_ge r f.length with hlt | hge
  · constructor
    · unfold gset
      rw [List.length_set]
      exact hw.1
    · intro row hrow
      unfold gset at hrow
      rcases List.mem_or_eq_of_mem_set hrow with h1 | h1
      · exact hw.2 _ h1
      · subst h1
        rw [List.length_set]
        exact row_len hw (by rw [← hw.1]; exact hlt)
  · unfold gset
    rw [List.set_eq_of_length_le hge]
    exact hw

theorem WFGrid_new (w h : Nat) : WFGrid w h (List.replicate h (List.replicate w 0)) := by
  constructor
  · exact List.length_replicate h _
  · intro row hrow
    rw [(List.mem_replicate.mp hrow).2]
    exact List.length_replicate w _

/-! The tick / blink state machine. -/

theorem tick_t {mf : MineField} (hb : mf.b = 80) (ht : mf.t < 80) :
    (mf.tick).t = (mf.t + 1) % 80 ∧ (mf.tick).b = 80 := by
  simp only [MineField.tick, hb]
  split_ifs with h1 h2
  · exact ⟨by show mf.t + 1 = (mf.t + 1) % 80; omega, rfl⟩
  · exact ⟨by show 0 = (mf.t + 1) % 80; omega, rfl⟩
  · exact ⟨by show mf.t + 1 = (mf.t + 1) % 80; omega, rfl⟩

/-- Claim C8: with `blinkPeriod = 80` and `tickCounter` starting at 0,
`is_blink` is true exactly on counter values in `[0, 40)` and false on
`[40, 80)`, and `tick` resets the counter to 0 exactly on the 80th tick
after a reset: after `n` ticks the counter reads `n % 80`, blinking holds
iff `n % 80 < 40`, and the next tick resets to 0 iff `n % 80 = 79`. -/
theorem claim8_blink_cycle (mf : MineField) (hb : mf.b = 80) (ht : mf.t = 0) (n : Nat) :
    (MineField.tick^[n] mf).t = n % 80 ∧
    (MineField.tick^[n] mf).is_blink = decide (n % 80 < 40) ∧
    ((MineField.tick^[n] mf).tick.t = 0 ↔ n % 80 = 79) := by
  have key : ∀ j : Nat, (MineField.tick^[j] mf).t = j % 80 ∧ (MineField.tick^[j] mf).b = 80 := by
    intro j
    induction j with
    | zero => exact ⟨ht, hb⟩
    | succ j ih =>
      rw [Function.iterate_succ_apply']
      have hlt : (MineField.tick^[j] mf).t < 80 := by omega
      have h1 := tick_t ih.2 hlt
      refine ⟨?_, h1.2⟩
      rw [h1.1, ih.1]
      omega
  have hk := key n
  have hlt : (MineField.tick^[n] mf).t < 80 := by omega
  have h1 := tick_t hk.2 hlt
  refine ⟨hk.1, ?_, ?_⟩
  · unfold MineField.is_blink
    rw [hk.1, hk.2]
  · rw [h1.1, hk.1]
    omega

/-- Closed witness for C8: after 40 ticks from a fresh board the cursor
blink is off, and after 79 ticks the next tick resets the counter. -/
theorem claim8_witness :
    (MineField.tick^[40] (MineField.new 1 1 0)).is_blink = false ∧
    (MineField.tick^[79] (MineField.new 1 1 0)).tick.t = 0 := by
  constructor
  · have h := (claim8_blink_cycle (MineField.new 1 1 0) rfl rfl 40).2.1
    rw [h]
    rfl
  · have h := (claim8_blink_cycle (MineField.new 1 1 0) rfl rfl 79).2.2
    exact h.mpr (by norm_num)

/-! Reveal on a mine: claims C1 and C2. -/

theorem openF_mine {fuel : Nat} {mf : MineField} {r c : Nat}
    (hm : get_v (gget mf.f r c) = 0x0f) :
    openF (fuel + 1) mf r c = (false, mf) := by
  unfold openF
  simp [hm, is_mine]

theorem click_fst (mf : MineField) (p : List Nat) : (mf.click p).1 = true := by
  unfold MineField.click MineField.clickAfterStart
  split_ifs <;> rfl

theorem click_start_skip {mf : MineField} {p : List Nat} (hs : mf.s ≠ 0) :
    mf.click p = mf.clickAfterStart := by
  unfold MineField.click
  simp [hs]

/-- Claim C1 (amended): on a board with mines placed (`s ≠ 0`) that has not
ended, a reveal whose (closed) target cell is a mine sets `exploded`,
leaves `openedCount` and the entire grid — in particular the target's
opened flag — unchanged, but returns `true`: the very same value every
`click` call returns, so there is no distinct failure signal in the return
value. -/
theorem claim1_reveal_mine (mf : MineField) (p : List Nat)
    (hs : mf.s ≠ 0) (hend : mf.s < 0x4000)
    (hmine : get_v (gget mf.f mf.r mf.c) = 0x0f)
    (hcl : mf.is_opened mf.r mf.c = false) :
    (mf.click p).2.is_explosion = true ∧
    openedCount (mf.click p).2 = openedCount mf ∧
    (mf.click p).2.f = mf.f ∧
    (mf.click p).1 = true ∧
    (∀ (mf' : MineField) (p' : List Nat), (mf'.click p').1 = true) := by
  have hopen : mf.openCell mf.r mf.c = (false, mf) := openF_mine hmine
  have hclick : mf.click p = (true, mf.explosion) := by
    rw [click_start_skip hs]
    unfold MineField.clickAfterStart
    simp [hcl, hopen]
  have hstat : mf.s = statOf (mf.s) false false := by simp [statOf]
  have hexp : mf.explosion.s = statOf mf.s false true := by
    show mf.s ||| 0x8000 = _
    rw [hstat]
    exact stat_lor_expl hend false false
  refine ⟨?_, ?_, ?_, ?_, fun mf' p' => click_fst mf' p'⟩
  · rw [hclick]
    show (mf.explosion.s &&& 0x8000 != 0) = true
    rw [hexp, stat_land_expl hend false true]
    simp
  · rw [hclick]
    show mf.explosion.s % 0x4000 = mf.s % 0x4000
    rw [hexp, stat_mod hend false true]
    omega
  · rw [hclick]
    rfl
  · rw [hclick]

/-- Closed witness for C1: a concrete 1×3 board (mine at column 1, column 0
already opened), where the reveal on the mine explodes, keeps the count and
the grid, and returns `true`. -/
theorem claim1_witness :
    ((((MineField.new 3 1 1).click [1, 0, 2]).2.right.click [1, 0, 2]).2.is_explosion = true ∧
      openedCount (((MineField.new 3 1 1).click [1, 0, 2]).2.right.click [1, 0, 2]).2 =
        openedCount ((MineField.new 3 1 1).click [1, 0, 2]).2.right ∧
      (((MineField.new 3 1 1).click [1, 0, 2]).2.right.click [1, 0, 2]).2.f =
        ((MineField.new 3 1 1).click [1, 0, 2]).2.right.f ∧
      (((MineField.new 3 1 1).click [1, 0, 2]).2.right.click [1, 0, 2]).1 = true ∧
      (∀ (mf' : MineField) (p' : List Nat), (mf'.click p').1 = true)) := by
  exact claim1_reveal_mine (((MineField.new 3 1 1).click [1, 0, 2]).2.right) [1, 0, 2]
    (by decide) (by decide) (by decide) (by decide)

/-- Counterexample for C1 as frozen: the claim says a reveal hitting a mine
returns the failure signal while a safe reveal returns the success signal,
but `click` returns `true` in both cases: here the mine-hitting reveal
(which does set `exploded`) returns the same value as the initial safe
reveal (which did not). -/
theorem claim1_counterexample :
    ((((MineField.new 3 1 1).click [1, 0, 2]).2.right.click [1, 0, 2]).2.is_explosion = true ∧
      ((MineField.new 3 1 1).click [1, 0, 2]).2.is_explosion = false ∧
      (((MineField.new 3 1 1).click [1, 0, 2]).2.right.click [1, 0, 2]).1 =
        ((MineField.new 3 1 1).click [1, 0, 2]).1) := by
  decide

/-- Claim C2 (amended): once `exploded` or `succeeded` is set, a reveal
whose target cell is already opened is a complete no-op — but only then:
a reveal aimed at a still-closed cell keeps mutating the board (see the
counterexample), so the blanket idempotence stated by the spec fails. -/
theorem claim2_ended_click_on_opened_noop (mf : MineField) (p : List Nat)
    (hend : mf.is_end = true) (hop : mf.is_opened mf.r mf.c = true) :
    mf.click p = (true, mf) := by
  have hs : mf.s ≠ 0 := by
    have : (0x4000 : Nat) ≤ mf.s := by simpa [MineField.is_end] using hend
    omega
  rw [click_start_skip hs]
  unfold MineField.clickAfterStart
  simp [hop]

/-- Closed witness for C2 (amended): after an explosion and the end-of-game
reveal, a further click on the (opened) cursor cell changes nothing. -/
theorem claim2_witness :
    ((((MineField.new 3 1 1).click [1, 0, 2]).2.right.click [1, 0, 2]).2.ending.click [1, 0, 2]) =
      (true, (((MineField.new 3 1 1).click [1, 0, 2]).2.right.click [1, 0, 2]).2.ending) := by
  exact claim2_ended_click_on_opened_noop _ [1, 0, 2] (by decide) (by decide)

/-- Counterexample for C2 as frozen: on an exploded board, a subsequent
reveal targeting a still-closed non-mine cell is not a no-op — it opens the
cell and changes `openedCount` from 1 to 2. -/
theorem claim2_counterexample :
    ((((MineField.new 3 1 1).click [1, 0, 2]).2.right.click [1, 0, 2]).2.right.is_explosion = true ∧
      openedCount ((((MineField.new 3 1 1).click [1, 0, 2]).2.right.click [1, 0, 2]).2.right) = 1 ∧
      openedCount (((((MineField.new 3 1 1).click [1, 0, 2]).2.right.click [1, 0, 2]).2.right.click
        [1, 0, 2]).2) = 2) := by
  decide

/-! Counting cells in grids. -/

theorem sum_eq_take_elem_drop (l : List Nat) {n : Nat} (h : n < l.length) :
    l.sum = (l.take n).sum + (l[n] + (l.drop (n + 1)).sum) := by
  conv_lhs => rw [← List.take_append_drop n l]
  rw [List.sum_append, List.drop_eq_getElem_cons h, List.sum_cons]

theorem getD_eq_getElem_row {f : List (List Nat)} {r : Nat} (hr : r < f.length) :
    f.getD r [] = f[r] := by
  rw [List.getD_eq_getElem?_getD, List.getElem?_eq_getElem hr]
  rfl

theorem gget_eq_getElem {f : List (List Nat)} {r c : Nat}
    (hr : r < f.length) (hc : c < (f[r]).length) : gget f r c = f[r][c] := by
  unfold gget
  rw [getD_eq_getElem_row hr, List.getD_eq_getElem?_getD, List.getElem?_eq_getElem hc]
  rfl

theorem gridCountP_gset (p : Nat → Bool) {w h : Nat} {f : List (List Nat)}
    (hw : WFGrid w h f) {r c : Nat} (hr : r < h) (hc : c < w) (v : Nat) :
    gridCountP p (gset f r c v) + (if p (gget f r c) = true then 1 else 0)
      = gridCountP p f + (if p v = true then 1 else 0) := by
  have hrf : r < f.length := by rw [hw.1]; exact hr
  have hrow : f.getD r [] = f[r] := getD_eq_getElem_row hrf
  have hcl : c < f[r].length := by rw [← hrow, row_len hw hr]; exact hc
  have hgget : gget f r c = f[r][c] := gget_eq_getElem hrf hcl
  have hcp := List.countP_set p (f[r]) c v hcl
  have hpos : (if p (f[r][c]) = true then 1 else 0) ≤ List.countP p (f[r]) := by
    split_ifs with hpc
    · exact List.countP_pos_iff.mpr ⟨f[r][c], List.getElem_mem hcl, hpc⟩
    · exact Nat.zero_le _
  have hsum := sum_eq_take_elem_drop (f.map (fun row => row.countP p))
    (by rw [List.length_map]; exact hrf)
  rw [List.getElem_map] at hsum
  unfold gridCountP gset
  rw [hrow, List.map_set, List.sum_set, hcp, List.length_map, if_pos hrf, hgget]
  omega

/-! The mine placement loop. -/

theorem gget_gset_cases (f : List (List Nat)) (r c v j i : Nat) :
    gget (gset f r c v) j i = gget f j i ∨ gget (gset f r c v) j i = v := by
  by_cases hj : r = j
  · by_cases hi : c = i
    · subst hj
      subst hi
      unfold gget gset
      rcases Nat.lt_or_ge r f.length with hlt | hge
      · rw [getD_set_self hlt]
        rcases Nat.lt_or_ge c (f.getD r []).length with hlt2 | hge2
        · right
          rw [getD_set_self hlt2]
        · left
          rw [List.set_eq_of_length_le hge2]
      · left
        rw [List.set_eq_of_length_le hge]
    · left
      exact gget_gset_ne (Or.inr hi) v
  · left
    exact gget_gset_ne (Or.inl hj) v

theorem placeList_mono (e : Bool) (w m cr cc : Nat) :
    ∀ (l : List Nat) (n : Nat) (f : List (List Nat)) (j i : Nat),
      gget (placeList e w m cr cc l n f) j i = gget f j i ∨
      gget (placeList e w m cr cc l n f) j i = 0x0f := by
  intro l
  induction l with
  | nil => intro n f j i; left; rfl
  | cons q rest ih =>
    intro n f j i
    by_cases hnm : n ≥ m
    · simp [placeList, hnm]
    · simp only [placeList, if_neg hnm]
      by_cases hq : (e || !(q / w == cr) || !(q % w == cc)) = true
      · rw [if_pos hq]
        rcases ih (n + 1) (gset f (q / w) (q % w) (set_m (gget f (q / w) (q % w)))) j i with h1 | h1
        · rw [h1]
          exact gget_gset_cases f (q / w) (q % w) _ j i
        · right
          exact h1
      · rw [if_neg hq]
        exact ih n f j i

theorem placeList_cursor (w m cr cc : Nat) :
    ∀ (l : List Nat) (n : Nat) (f : List (List Nat)),
      gget (placeList false w m cr cc l n f) cr cc = gget f cr cc := by
  intro l
  induction l with
  | nil => intro n f; rfl
  | cons q rest ih =>
    intro n f
    by_cases hnm : n ≥ m
    · simp only [placeList, if_pos hnm]
    · simp only [placeList, if_neg hnm]
      by_cases hq : (false || !(q / w == cr) || !(q % w == cc)) = true
      · rw [if_pos hq]
        rw [ih]
        apply gget_gset_ne
        simp only [Bool.false_or, Bool.or_eq_true, Bool.not_eq_eq_eq_not, Bool.not_true,
          beq_eq_false_iff_ne, ne_eq] at hq
        tauto
      · rw [if_neg hq]
        exact ih n f

theorem WFGrid_placeList {w h : Nat} (e : Bool) (m cr cc : Nat) :
    ∀ (l : List Nat) (n : Nat) (f : List (List Nat)), WFGrid w h f →
      WFGrid w h (placeList e w m cr cc l n f) := by
  intro l
  induction l with
  | nil => intro n f hw; exact hw
  | cons q rest ih =>
    intro n f hw
    by_cases hnm : n ≥ m
    · simp only [placeList, if_pos hnm]
      exact hw
    · simp only [placeList, if_neg hnm]
      split
      · exact ih (n + 1) _ (WFGrid_gset hw _ _ _)
      · exact ih n f hw

theorem decode_inj {w x y : Nat} (h1 : x / w = y / w) (h2 : x % w = y % w) : x = y := by
  have hx := Nat.div_add_mod x w
  have hy := Nat.div_add_mod y w
  rw [h1, h2] at hx
  omega

theorem placeList_all {w h : Nat} (m cr cc : Nat) (hw0 : 0 < w) :
    ∀ (l : List Nat) (n : Nat) (f : List (List Nat)), WFGrid w h f →
      (∀ x ∈ l, x < w * h) → n + l.length ≤ m →
      ∀ x ∈ l, gget (placeList true w m cr cc l n f) (x / w) (x % w) = 0x0f := by
  intro l
  induction l with
  | nil => intro n f _ _ _ x hx; cases hx
  | cons q rest ih =>
    intro n f hw hx hn x hmem
    have hnm : ¬ n ≥ m := by
      have := List.length_cons q rest
      omega
    simp only [placeList, if_neg hnm, Bool.true_or, if_pos]
    have hq1 : q < w * h := hx q (List.mem_cons_self q rest)
    have hqr : q / w < h := by
      rw [Nat.div_lt_iff_lt_mul hw0, Nat.mul_comm]
      omega
    have hqc : q % w < w := Nat.mod_lt _ hw0
    have hw' : WFGrid w h (gset f (q / w) (q % w) (set_m (gget f (q / w) (q % w)))) :=
      WFGrid_gset hw _ _ _
    rcases List.mem_cons.mp hmem with rfl | hmem2
    · rcases placeList_mono true w m cr cc rest (n + 1) _ (x / w) (x % w) with h1 | h1
      · rw [h1]
        exact gget_gset_self hw hqr hqc _
      · exact h1
    · exact ih (n + 1) _ hw' (fun y hy => hx y (List.mem_cons_of_mem q hy))
        (by simp at hn ⊢; omega) x hmem2

theorem chosen_break {e : Bool} {w m cr cc n : Nat} {l : List Nat} (h : n ≥ m) :
    chosen e w m cr cc l n = [] := by
  unfold chosen
  rw [Nat.sub_eq_zero_of_le h]
  exact List.take_zero _

theorem chosen_cons_pos {e : Bool} {w m cr cc n : Nat} {q : Nat} {rest : List Nat}
    (hn : n < m) (hq : (e || !(q / w == cr) || !(q % w == cc)) = true) :
    chosen e w m cr cc (q :: rest) n = q :: chosen e w m cr cc rest (n + 1) := by
  unfold chosen
  rw [List.filter_cons, if_pos hq, List.take_cons (by omega)]
  have hsub : m - n - 1 = m - (n + 1) := by omega
  rw [hsub]

theorem chosen_cons_neg {e : Bool} {w m cr cc n : Nat} {q : Nat} {rest : List Nat}
    (hq : ¬ (e || !(q / w == cr) || !(q % w == cc)) = true) :
    chosen e w m cr cc (q :: rest) n = chosen e w m cr cc rest n := by
  unfold chosen
  rw [List.filter_cons, if_neg hq]

theorem placeList_mineCnt {w h : Nat} (e : Bool) (m cr cc : Nat) (hw0 : 0 < w) :
    ∀ (l : List Nat) (n : Nat) (f : List (List Nat)), WFGrid w h f → l.Nodup →
      (∀ x ∈ l, x < w * h) →
      (∀ x ∈ l, is_mine (gget f (x / w) (x % w)) = false) →
      gridCountP is_mine (placeList e w m cr cc l n f)
        = gridCountP is_mine f + (chosen e w m cr cc l n).length := by
  intro l
  induction l with
  | nil =>
    intro n f _ _ _ _
    simp [placeList, chosen]
  | cons q rest ih =>
    intro n f hw hnd hx hfr
    by_cases hnm : n ≥ m
    · simp only [placeList, if_pos hnm, chosen_break hnm]
      rfl
    · simp only [placeList, if_neg hnm]
      have hq1 : q < w * h := hx q (List.mem_cons_self q rest)
      have hqr : q / w < h := by
        rw [Nat.div_lt_iff_lt_mul hw0, Nat.mul_comm]
        omega
      have hqc : q % w < w := Nat.mod_lt _ hw0
      by_cases hq : (e || !(q / w == cr) || !(q % w == cc)) = true
      · rw [if_pos hq, chosen_cons_pos (by omega) hq]
        have hw' : WFGrid w h (gset f (q / w) (q % w) (set_m (gget f (q / w) (q % w)))) :=
          WFGrid_gset hw _ _ _
        have hcnt := gridCountP_gset is_mine hw hqr hqc (set_m (gget f (q / w) (q % w)))
        rw [hfr q (List.mem_cons_self q rest)] at hcnt
        have hmine15 : is_mine (set_m (gget f (q / w) (q % w))) = true := rfl
        rw [hmine15] at hcnt
        norm_num at hcnt
        have hih := ih (n + 1) _ hw' (hnd.of_cons)
          (fun y hy => hx y (List.mem_cons_of_mem q hy))
          (fun y hy => by
            have hyq : y ≠ q := by
              intro hEq
              subst hEq
              exact (List.nodup_cons.mp hnd).1 hy
            have hne : q / w ≠ y / w ∨ q % w ≠ y % w := by
              by_contra hcon
              push_neg at hcon
              exact hyq (decode_inj hcon.1 hcon.2).symm
            rw [gget_gset_ne hne]
            exact hfr y (List.mem_cons_of_mem q hy))
        rw [hih]
        simp only [List.length_cons]
        omega
      · rw [if_neg hq, chosen_cons_neg hq]
        exact ih n f hw (hnd.of_cons) (fun y hy => hx y (List.mem_cons_of_mem q hy))
          (fun y hy => hfr y (List.mem_cons_of_mem q hy))

/-! The adjacency-count pass of `start`. -/

theorem countP_mapIdx {α β : Type} (pb : β → Bool) (pa : α → Bool) :
    ∀ (l : List α) (g : Nat → α → β),
      (∀ (i : Nat) (hi : i < l.length), pb (g i l[i]) = pa l[i]) →
      (l.mapIdx g).countP pb = l.countP pa := by
  intro l
  induction l with
  | nil => intro g _; rfl
  | cons a tl ih =>
    intro g hg
    rw [List.mapIdx_cons, List.countP_cons, List.countP_cons]
    rw [ih (fun i x => g (i + 1) x) (fun i hi => hg (i + 1) (by simpa using hi))]
    have h0 := hg 0 (by simp)
    simp only [List.getElem_cons_zero] at h0
    rw [h0]

theorem gridCountP_mapIdx (pb pa : Nat → Bool) :
    ∀ (f : List (List Nat)) (G : Nat → Nat → Nat → Nat),
      (∀ (r c : Nat) (hr : r < f.length) (hc : c < (f[r]).length),
        pb (G r c (f[r][c])) = pa (f[r][c])) →
      gridCountP pb (f.mapIdx (fun r v => v.mapIdx (fun c u => G r c u)))
        = gridCountP pa f := by
  intro f
  induction f with
  | nil => intro G _; rfl
  | cons row tl ih =>
    intro G hG
    rw [List.mapIdx_cons]
    unfold gridCountP
    rw [List.map_cons, List.map_cons, List.sum_cons, List.sum_cons]
    have hrow : (row.mapIdx (fun c u => G 0 c u)).countP pb = row.countP pa := by
      apply countP_mapIdx
      intro i hi
      have := hG 0 i (by simp) (by simpa using hi)
      simpa using this
    have htl := ih (fun r c u => G (r + 1) c u) (fun r c hr hc => by
      have := hG (r + 1) c (by simpa using hr) (by simpa using hc)
      simpa using this)
    unfold gridCountP at htl
    rw [hrow, htl]

theorem nbrs_length_le (w h r c : Nat) : (nbrs w h r c).length ≤ 9 := by
  simp only [nbrs]
  rw [List.length_flatMap]
  refine le_trans (List.sum_le_card_nsmul _ 3 ?_) ?_
  · intro x hx
    rcases List.mem_map.mp hx with ⟨j, _, rfl⟩
    simp only [Function.comp]
    refine le_trans (List.length_filterMap_le _ _) ?_
    rw [List.length_map, List.length_range]
    split_ifs <;> omega
  · rw [smul_eq_mul, List.length_map, List.length_map, List.length_range]
    have hb : (if r < h - 1 then r + 1 else r) + 1 - (if r > 0 then r - 1 else r) ≤ 3 := by
      split_ifs <;> omega
    omega

theorem get_k_lt (w h : Nat) (f : List (List Nat)) (r c : Nat) : get_k w h f r c < 15 := by
  unfold get_k
  have h1 := List.length_filter_le (fun ji : Nat × Nat => is_mine (gget f ji.1 ji.2))
    (nbrs w h r c)
  have h2 := nbrs_length_le w h r c
  omega

theorem WFGrid_computeCounts {w h : Nat} {f : List (List Nat)} (hw : WFGrid w h f) :
    WFGrid w h (computeCounts w h f) := by
  constructor
  · unfold computeCounts
    rw [List.length_mapIdx]
    exact hw.1
  · intro row hrow
    unfold computeCounts at hrow
    rcases List.mem_iff_getElem.mp hrow with ⟨i, hi, heq⟩
    have hif : i < f.length := by
      rw [List.length_mapIdx] at hi
      exact hi
    rw [List.getElem_mapIdx] at heq
    rw [← heq, List.length_mapIdx]
    exact hw.2 _ (List.getElem_mem hif)

theorem computeCounts_gget {w h : Nat} {f : List (List Nat)} (hw : WFGrid w h f)
    {r c : Nat} (hr : r < h) (hc : c < w) :
    gget (computeCounts w h f) r c
      = if is_mine (gget f r c) then gget f r c else get_k w h f r c := by
  have hrf : r < f.length := by rw [hw.1]; exact hr
  have hcf : c < (f[r]).length := by
    rw [← getD_eq_getElem_row hrf, row_len hw hr]
    exact hc
  have hrx : r < (computeCounts w h f).length := by
    unfold computeCounts
    rw [List.length_mapIdx]
    exact hrf
  have hcx : c < ((computeCounts w h f)[r]).length := by
    unfold computeCounts
    simp only [List.getElem_mapIdx, List.length_mapIdx]
    exact hcf
  rw [gget_eq_getElem hrx hcx]
  unfold computeCounts
  simp only [List.getElem_mapIdx]
  rw [gget_eq_getElem hrf hcf]

theorem computeCounts_mineCnt {w h : Nat} {f : List (List Nat)} (_hw : WFGrid w h f) :
    gridCountP (fun u => get_v u == 0x0f) (computeCounts w h f)
      = gridCountP is_mine f := by
  apply gridCountP_mapIdx
  intro r c hr hc
  by_cases hm : is_mine (gget f r c) = true
  · have hm2 : (gget f r c == 0x0f) = true := hm
    have hbyte : gget f r c = 0x0f := beq_iff_eq.mp hm2
    rw [if_pos hm]
    rw [gget_eq_getElem hr hc] at hbyte
    rw [hbyte]
    have : is_mine (0x0f : Nat) = true := rfl
    rw [this]
    rfl
  · rw [if_neg hm]
    have hlt := get_k_lt w h f r c
    have hv : get_v (get_k w h f r c) = get_k w h f r c := get_v_small (by omega)
    have hne : (get_v (get_k w h f r c) == 0x0f) = false := by
      rw [hv]
      exact beq_eq_false_iff_ne.mpr (by omega)
    rw [hne]
    rw [← gget_eq_getElem hr hc]
    exact (Bool.eq_false_iff.mpr hm).symm

/-! Fresh grids. -/

theorem getD_replicate {α : Type} (n : Nat) (a d : α) (i : Nat) :
    (List.replicate n a).getD i d = if i < n then a else d := by
  rw [List.getD_eq_getElem?_getD, List.getElem?_replicate]
  split_ifs <;> rfl

theorem gget_replicate (w h j i : Nat) : gget (List.replicate h (List.replicate w 0)) j i = 0 := by
  unfold gget
  rw [getD_replicate]
  split_ifs with hj
  · rw [getD_replicate]
    split_ifs <;> rfl
  · rfl

theorem gridCountP_replicate_zero {p : Nat → Bool} (hp : p 0 = false) (w h : Nat) :
    gridCountP p (List.replicate h (List.replicate w 0)) = 0 := by
  unfold gridCountP
  rw [List.map_replicate]
  have hrow : (List.replicate w 0).countP p = 0 := by
    rw [List.countP_eq_zero]
    intro a ha
    rw [List.eq_of_mem_replicate ha, hp]
    exact Bool.false_ne_true
  rw [hrow, List.sum_replicate, smul_zero]

/-! Permutations of the index range. -/

theorem perm_coverage {n : Nat} {p : List Nat} (hnd : p.Nodup) (hlen : p.length = n)
    (hx : ∀ x ∈ p, x < n) : ∀ k, k < n → k ∈ p := by
  intro k hk
  by_contra hkp
  have hsub : p.toFinset ⊆ (Finset.range n).erase k := by
    intro x hxx
    rw [Finset.mem_erase, Finset.mem_range]
    have hxp : x ∈ p := List.mem_toFinset.mp hxx
    exact ⟨fun hEq => hkp (hEq ▸ hxp), hx x hxp⟩
  have hcard := Finset.card_le_card hsub
  rw [List.toFinset_card_of_nodup hnd, hlen,
    Finset.card_erase_of_mem (Finset.mem_range.mpr hk), Finset.card_range] at hcard
  omega

theorem filter_length_ge_of_unique {α : Type} (p : α → Bool) (a : α) :
    ∀ (l : List α), (∀ x ∈ l, p x = false → x = a) → l.Nodup →
      l.length ≤ (l.filter p).length + 1 := by
  intro l
  induction l with
  | nil => intro _ _; simp
  | cons x tl ih =>
    intro h hn
    cases hp : p x
    · have hxa : x = a := h x (List.mem_cons_self x tl) hp
      have htl : tl.filter p = tl := by
        rw [List.filter_eq_self]
        intro y hy
        by_contra hpy
        have hya : y = a := h y (List.mem_cons_of_mem x hy) (Bool.eq_false_iff.mpr hpy)
        rw [← hxa] at hya
        subst hya
        exact (List.nodup_cons.mp hn).1 hy
      rw [List.filter_cons, if_neg (by rw [hp]; exact Bool.false_ne_true), htl]
      simp
    · rw [List.filter_cons, if_pos hp]
      have := ih (fun y hy hpy => h y (List.mem_cons_of_mem x hy) hpy) (hn.of_cons)
      simp only [List.length_cons]
      omega

theorem chosen_length {w h m cr cc : Nat} {p : List Nat}
    (hnd : p.Nodup) (hlen : p.length = w * h) (hm : m < w * h) :
    (chosen false w m cr cc (p.take (m + 1)) 0).length = m := by
  unfold chosen
  rw [List.length_take, Nat.sub_zero]
  have hnd2 : (p.take (m + 1)).Nodup := (List.take_sublist _ _).nodup hnd
  have huniq : ∀ x ∈ p.take (m + 1),
      (false || !(x / w == cr) || !(x % w == cc)) = false → x = cr * w + cc := by
    intro x _ hfalse
    simp only [Bool.false_or, Bool.or_eq_false_iff, Bool.not_eq_false', beq_iff_eq] at hfalse
    have hdm := Nat.div_add_mod x w
    rw [hfalse.1, hfalse.2] at hdm
    rw [← hdm, Nat.mul_comm]
  have hge := filter_length_ge_of_unique _ (cr * w + cc) (p.take (m + 1)) huniq hnd2
  have htl : (p.take (m + 1)).length = m + 1 := by
    rw [List.length_take, hlen]
    omega
  rw [htl] at hge
  omega

/-! The first reveal: mine placement. -/

theorem update_m_new (w h m c0 r0 : Nat) (hc0 : c0 < w) (hr0 : r0 < h) :
    ((MineField.new w h m).update_m c0 r0).2 =
      { s := 0, w := w, h := h, m := m, f := List.replicate h (List.replicate w 0),
        r := r0, c := c0, ms := 10, b := 80, t := 0 } := by
  unfold MineField.new MineField.update_m
  rw [if_pos (show c0 < w ∧ r0 < h from ⟨hc0, hr0⟩)]

theorem start_eq (mf : MineField) (p : List Nat) :
    mf.start p = { mf with
      f := computeCounts mf.w mf.h (placeList (decide (mf.m ≥ mf.w * mf.h))
        mf.w mf.m mf.r mf.c (p.take (mf.m + 1)) 0 mf.f) } := rfl

/-- Claim C4: on a board with `mineCount < width*height`, immediately after
the first reveal has run mine placement (the `start` invoked by `click` on a
fresh board with the cursor at `(r0, c0)`), the cell under the cursor is not
mine-valued and the grid holds exactly `mineCount` mine-valued cells. -/
theorem claim4_first_click_safety (w h m : Nat) (p : List Nat) (r0 c0 : Nat)
    (hm : m < w * h) (hr0 : r0 < h) (hc0 : c0 < w)
    (hp : PermOf (MineField.new w h m) p) :
    get_v (gget ((((MineField.new w h m).update_m c0 r0).2.start p).f) r0 c0) ≠ 0x0f ∧
    mineCnt (((MineField.new w h m).update_m c0 r0).2.start p) = m := by
  obtain ⟨hnd, hlen, hxp⟩ := hp
  have hlen' : p.length = w * h := hlen
  have hxp' : ∀ x ∈ p, x < w * h := hxp
  have hw0 : 0 < w := by omega
  rw [update_m_new w h m c0 r0 hc0 hr0, start_eq]
  have hE : (decide (m ≥ w * h)) = false := by
    simp only [decide_eq_false_iff_not]
    omega
  simp only [hE]
  set fr : List (List Nat) := List.replicate h (List.replicate w 0) with hfr
  set f1 : List (List Nat) := placeList false w m r0 c0 (p.take (m + 1)) 0 fr with hf1
  have hwfr : WFGrid w h fr := WFGrid_new w h
  have hxt : ∀ x ∈ p.take (m + 1), x < w * h :=
    fun x hx => hxp' x ((List.take_sublist _ _).mem hx)
  have hwf1 : WFGrid w h f1 := WFGrid_placeList false m r0 c0 _ 0 fr hwfr
  constructor
  · have hcur : gget f1 r0 c0 = 0 := by
      rw [hf1, placeList_cursor, hfr, gget_replicate]
    rw [computeCounts_gget hwf1 hr0 hc0, hcur]
    have hmine0 : is_mine (0 : Nat) = false := rfl
    rw [hmine0]
    simp only [if_false, Bool.false_eq_true]
    have hlt := get_k_lt w h f1 r0 c0
    rw [get_v_small (by omega)]
    omega
  · show gridCountP (fun u => get_v u == 0x0f) (computeCounts w h f1) = m
    rw [computeCounts_mineCnt hwf1]
    rw [hf1, placeList_mineCnt false m r0 c0 hw0 _ 0 fr hwfr
      ((List.take_sublist _ _).nodup hnd) hxt
      (fun x _ => by rw [hfr, gget_replicate]; rfl)]
    rw [hfr, gridCountP_replicate_zero (show is_mine 0 = false from rfl) w h]
    rw [chosen_length hnd hlen' hm]
    omega

/-- Closed witness for C4: a 2×2 board with one mine and permutation
`[1, 2, 3, 0]`; after placement the cursor cell `(0, 0)` is clean and there
is exactly one mine. -/
theorem claim4_witness :
    get_v (gget ((((MineField.new 2 2 1).update_m 0 0).2.start [1, 2, 3, 0]).f) 0 0) ≠ 0x0f ∧
    mineCnt (((MineField.new 2 2 1).update_m 0 0).2.start [1, 2, 3, 0]) = 1 := by
  exact claim4_first_click_safety 2 2 1 [1, 2, 3, 0] 0 0 (by norm_num) (by norm_num)
    (by norm_num) ⟨by decide, by decide, by decide⟩

/-- Claim C10: when `mineCount >= width*height`, placement fills the whole
grid with mines — including the first-clicked cell — so the first reveal
explodes: after `click` on the fresh board every cell is the mine byte,
`exploded` is set and `openedCount` is 0. -/
theorem claim10_fill_all (w h m : Nat) (p : List Nat) (r0 c0 : Nat)
    (hm : w * h ≤ m) (hr0 : r0 < h) (hc0 : c0 < w)
    (hp : PermOf (MineField.new w h m) p) :
    (∀ j i, j < h → i < w →
      gget ((((MineField.new w h m).update_m c0 r0).2.click p).2).f j i = 0x0f) ∧
    ((((MineField.new w h m).update_m c0 r0).2.click p).2).is_explosion = true ∧
    openedCount ((((MineField.new w h m).update_m c0 r0).2.click p).2) = 0 := by
  obtain ⟨hnd, hlen, hxp⟩ := hp
  have hlen' : p.length = w * h := hlen
  have hxp' : ∀ x ∈ p, x < w * h := hxp
  have hw0 : 0 < w := by omega
  rw [update_m_new w h m c0 r0 hc0 hr0]
  set L : MineField :=
    { s := 0, w := w, h := h, m := m, f := List.replicate h (List.replicate w 0),
      r := r0, c := c0, ms := 10, b := 80, t := 0 } with hL
  have hclick : L.click p = (L.start p).clickAfterStart := by
    unfold MineField.click
    rfl
  have htake : p.take (m + 1) = p := List.take_of_length_le (by omega)
  have hE : (decide (m ≥ w * h)) = true := by
    simp only [decide_eq_true_eq]
    omega
  have hwfr : WFGrid w h (List.replicate h (List.replicate w 0)) := WFGrid_new w h
  have hall1 : ∀ j i, j < h → i < w →
      gget (placeList true w m r0 c0 p 0 (List.replicate h (List.replicate w 0))) j i
        = 0x0f := by
    intro j i hj hi
    have hk : i + w * j < w * h := by
      have h1 : w * (j + 1) ≤ w * h := Nat.mul_le_mul_left w (by omega)
      rw [Nat.mul_add] at h1
      omega
    have hmem : i + w * j ∈ p := perm_coverage hnd hlen' hxp' _ hk
    have hdiv : (i + w * j) / w = j := by
      rw [Nat.add_mul_div_left _ _ hw0, Nat.div_eq_of_lt hi]
      omega
    have hmod : (i + w * j) % w = i := by
      rw [Nat.add_mul_mod_self_left, Nat.mod_eq_of_lt hi]
    have := placeList_all m r0 c0 hw0 p 0 _ hwfr hxp'
      (by rw [hlen']; omega) _ hmem
    rw [hdiv, hmod] at this
    exact this
  have hallS : ∀ j i, j < h → i < w → gget (L.start p).f j i = 0x0f := by
    intro j i hj hi
    rw [start_eq]
    show gget (computeCounts w h _) j i = 0x0f
    have hwf1 : WFGrid w h (placeList (decide (m ≥ w * h)) w m r0 c0 (p.take (m + 1)) 0
        (List.replicate h (List.replicate w 0))) :=
      WFGrid_placeList _ m r0 c0 _ 0 _ hwfr
    rw [computeCounts_gget hwf1 hj hi]
    rw [hE, htake] at hwf1 ⊢
    have h15 := hall1 j i hj hi
    rw [h15]
    rfl
  have hSr : (L.start p).r = r0 := rfl
  have hSc : (L.start p).c = c0 := rfl
  have hSs : (L.start p).s = 0 := rfl
  have hcursor : gget (L.start p).f r0 c0 = 0x0f := hallS r0 c0 hr0 hc0
  have hopened : (L.start p).is_opened r0 c0 = false := by
    unfold MineField.is_opened
    rw [hcursor]
    exact is_o_small (by norm_num)
  have hmine : get_v (gget (L.start p).f r0 c0) = 0x0f := by
    rw [hcursor]
    rfl
  have hopen : (L.start p).openCell r0 c0 = (false, L.start p) := openF_mine hmine
  have hca : (L.start p).clickAfterStart = (true, (L.start p).explosion) := by
    unfold MineField.clickAfterStart
    rw [hSr, hSc, hopened, hopen]
    rfl
  rw [hclick, hca]
  refine ⟨fun j i hj hi => hallS j i hj hi, ?_, ?_⟩
  · show ((((L.start p).s ||| 0x8000) &&& 0x8000) != 0) = true
    rw [hSs]
    rfl
  · show ((L.start p).s ||| 0x8000) % 0x4000 = 0
    rw [hSs]
    rfl

/-- Closed witness for C10: a 1×2 board with `mineCount = 2`; the first
click mines both cells and explodes immediately. -/
theorem claim10_witness :
    (∀ j i, j < 1 → i < 2 →
      gget ((((MineField.new 2 1 2).update_m 0 0).2.click [0, 1]).2).f j i = 0x0f) ∧
    ((((MineField.new 2 1 2).update_m 0 0).2.click [0, 1]).2).is_explosion = true ∧
    openedCount ((((MineField.new 2 1 2).update_m 0 0).2.click [0, 1]).2) = 0 := by
  exact claim10_fill_all 2 1 2 [0, 1] 0 0 (by norm_num) (by norm_num) (by norm_num)
    ⟨by decide, by decide, by decide⟩

/-! Adjacency counts: claim C6. -/

theorem range_split (lo hi n : Nat) (hlo : lo ≤ hi + 1) (hhi : hi < n) :
    List.range n = (List.range lo ++ (List.range (hi + 1 - lo)).map (fun x => x + lo))
      ++ (List.range (n - (hi + 1))).map (fun x => x + (hi + 1)) := by
  have h1 := List.range_add (hi + 1) (n - (hi + 1))
  rw [show hi + 1 + (n - (hi + 1)) = n from by omega] at h1
  have h2 := List.range_add lo (hi + 1 - lo)
  rw [show lo + (hi + 1 - lo) = hi + 1 from by omega] at h2
  rw [h1, h2]
  congr 1
  · congr 1
    exact List.map_congr_left (fun x _ => Nat.add_comm lo x)
  · exact List.map_congr_left (fun x _ => Nat.add_comm (hi + 1) x)

theorem countP_range_window (P : Nat → Bool) {lo hi n : Nat} (hlo : lo ≤ hi + 1) (hhi : hi < n)
    (hwin : ∀ x, P x = true → lo ≤ x ∧ x ≤ hi) :
    List.countP P (List.range n)
      = List.countP P ((List.range (hi + 1 - lo)).map (fun x => x + lo)) := by
  rw [range_split lo hi n hlo hhi, List.countP_append, List.countP_append]
  have hzero1 : List.countP P (List.range lo) = 0 := by
    rw [List.countP_eq_zero]
    intro a ha hPa
    have := hwin a hPa
    rw [List.mem_range] at ha
    omega
  have hzero2 : List.countP P ((List.range (n - (hi + 1))).map (fun x => x + (hi + 1))) = 0 := by
    rw [List.countP_eq_zero]
    intro a ha hPa
    rcases List.mem_map.mp ha with ⟨x, _, rfl⟩
    have := hwin _ hPa
    omega
  rw [hzero1, hzero2]
  omega

theorem sum_range_window (g : Nat → Nat) {lo hi n : Nat} (hlo : lo ≤ hi + 1) (hhi : hi < n)
    (hwin : ∀ x, x < n → g x ≠ 0 → lo ≤ x ∧ x ≤ hi) :
    ((List.range n).map g).sum
      = (((List.range (hi + 1 - lo)).map (fun x => x + lo)).map g).sum := by
  rw [range_split lo hi n hlo hhi, List.map_append, List.map_append,
    List.sum_append, List.sum_append]
  have hz1 : ((List.range lo).map g).sum = 0 := by
    apply List.sum_eq_zero
    intro x hx
    rcases List.mem_map.mp hx with ⟨a, ha, rfl⟩
    rw [List.mem_range] at ha
    by_contra hne
    have := hwin a (by omega) hne
    omega
  have hz2 : (((List.range (n - (hi + 1))).map (fun x => x + (hi + 1))).map g).sum = 0 := by
    apply List.sum_eq_zero
    intro x hx
    rcases List.mem_map.mp hx with ⟨a, ha, rfl⟩
    rcases List.mem_map.mp ha with ⟨y, hy, rfl⟩
    rw [List.mem_range] at hy
    by_contra hne
    have := hwin (y + (hi + 1)) (by omega) hne
    omega
  rw [hz1, hz2]
  omega

theorem filterMap_center (j r c : Nat) :
    ∀ l : List Nat,
      l.filterMap (fun i => if j = r ∧ i = c then none else some (j, i))
        = (l.filter (fun i => !(decide (j = r ∧ i = c)))).map (fun i => (j, i)) := by
  intro l
  induction l with
  | nil => rfl
  | cons x tl ih =>
    rw [List.filterMap_cons, List.filter_cons]
    by_cases hx : j = r ∧ x = c
    · rw [if_pos hx]
      have hb : (!(decide (j = r ∧ x = c))) = false := by
        rw [decide_eq_true hx]
        rfl
      rw [hb, if_neg (by exact Bool.false_ne_true)]
      exact ih
    · rw [if_neg hx]
      have hb : (!(decide (j = r ∧ x = c))) = true := by
        rw [decide_eq_false hx]
        rfl
      rw [hb, if_pos rfl]
      show (j, x) :: tl.filterMap _ = _
      rw [List.map_cons, ih]

theorem gget_oob_col {w h : Nat} {f : List (List Nat)} (hw : WFGrid w h f) {j b : Nat}
    (hj : j < h) (hb : w ≤ b) : gget f j b = 0 := by
  unfold gget
  have hrow := row_len hw hj
  have hnone : (f.getD j [])[b]? = none := by
    rw [List.getElem?_eq_none]
    rw [hrow]
    exact hb
  rw [List.getD_eq_getElem?_getD, hnone]
  rfl

theorem get_k_eq_window {w h : Nat} {f : List (List Nat)} (hw : WFGrid w h f)
    {r c : Nat} (hr : r < h) (hc : c < w) :
    get_k w h f r c = ((List.range h).map (fun a =>
      ((List.range w).filter (fun b =>
        (!((a == r) && (b == c))) && decide (a ≤ r + 1) && decide (r ≤ a + 1) &&
        decide (b ≤ c + 1) && decide (c ≤ b + 1) &&
        is_mine (gget f a b))).length)).sum := by
  unfold get_k
  simp only [nbrs]
  set rs := (if r > 0 then r - 1 else r) with hrs
  set re := (if r < h - 1 then r + 1 else r) with hre
  set cs := (if c > 0 then c - 1 else c) with hcs
  set ce := (if c < w - 1 then c + 1 else c) with hce
  have hrs1 : rs ≤ r ∧ r ≤ re ∧ re < h ∧ (r ≤ rs + 1) ∧ re ≤ r + 1 := by
    rw [hrs, hre]
    split_ifs <;> omega
  have hcs1 : cs ≤ c ∧ c ≤ ce ∧ ce < w ∧ (c ≤ cs + 1) ∧ ce ≤ c + 1 := by
    rw [hcs, hce]
    split_ifs <;> omega
  set comb : Nat → Nat → Bool := fun a b =>
    (!((a == r) && (b == c))) && decide (a ≤ r + 1) && decide (r ≤ a + 1) &&
    decide (b ≤ c + 1) && decide (c ≤ b + 1) && is_mine (gget f a b) with hcomb
  set g : Nat → Nat := fun a => ((List.range w).filter (comb a)).length with hg
  show _ = ((List.range h).map g).sum
  have hwinrow : ∀ a, a < h → g a ≠ 0 → rs ≤ a ∧ a ≤ re := by
    intro a ha hga
    rw [hg] at hga
    simp only [← List.countP_eq_length_filter] at hga
    have hpos : 0 < List.countP (comb a) (List.range w) := Nat.pos_of_ne_zero hga
    rcases List.countP_pos_iff.mp hpos with ⟨b, _, hcombab⟩
    rw [hcomb] at hcombab
    simp only [Bool.and_eq_true, decide_eq_true_eq] at hcombab
    have h1 : a ≤ r + 1 := hcombab.1.1.1.1.2
    have h2 : r ≤ a + 1 := hcombab.1.1.1.2
    rw [hrs, hre]
    split_ifs <;> omega
  rw [sum_range_window g (by omega) (by omega : re < h) hwinrow]
  have hwincol : ∀ j, rs ≤ j → j ≤ re → ∀ b, comb j b = true → cs ≤ b ∧ b ≤ ce := by
    intro j hj1 hj2 b hcb
    rw [hcomb] at hcb
    simp only [Bool.and_eq_true, decide_eq_true_eq] at hcb
    have h1 : b ≤ c + 1 := hcb.1.1.2
    have h2 : c ≤ b + 1 := hcb.1.2
    have hbw : b < w := by
      by_contra hbw
      push_neg at hbw
      have hj : j < h := by omega
      rw [gget_oob_col hw hj hbw] at hcb
      exact absurd hcb.2 (by decide)
    rw [hcs, hce]
    split_ifs <;> omega
  apply Eq.symm
  rw [List.map_map]
  apply Eq.symm
  rw [List.filter_flatMap, List.length_flatMap, List.map_map]
  apply congrArg
  apply List.map_congr_left
  intro x hx
  rw [List.mem_range] at hx
  have hjlo : rs ≤ x + rs := by omega
  have hjhi : x + rs ≤ re := by omega
  simp only [Function.comp]
  rw [filterMap_center, List.filter_map, List.length_map, ← List.countP_eq_length_filter,
    List.countP_filter]
  simp only [hg]
  rw [← List.countP_eq_length_filter]
  rw [countP_range_window (comb (x + rs)) (by omega) (by omega : ce < w)
    (hwincol (x + rs) hjlo hjhi)]
  apply List.countP_congr
  intro i hi
  rcases List.mem_map.mp hi with ⟨y, hy, rfl⟩
  rw [List.mem_range] at hy
  have hil : cs ≤ y + cs := by omega
  have hih : y + cs ≤ ce := by omega
  rw [hcomb]
  have hd1 : decide (x + rs ≤ r + 1) = true := decide_eq_true (by omega)
  have hd2 : decide (r ≤ x + rs + 1) = true := decide_eq_true (by omega)
  have hd3 : decide (y + cs ≤ c + 1) = true := decide_eq_true (by omega)
  have hd4 : decide (c ≤ y + cs + 1) = true := decide_eq_true (by omega)
  have hcen : (decide (x + rs = r ∧ y + cs = c)) = ((x + rs == r) && (y + cs == c)) := by
    by_cases hxr : x + rs = r
    · by_cases hyc : y + cs = c
      · simp [hxr, hyc]
      · simp [hxr, hyc]
    · simp [hxr]
  simp only [Function.comp_apply, hcen, hd1, hd2, hd3, hd4]
  simp only [Bool.and_true, Bool.true_and]
  rw [Bool.and_comm]

theorem computeCounts_adjacency {w h : Nat} {f1 : List (List Nat)} (hwf1 : WFGrid w h f1)
    {r c : Nat} (hr : r < h) (hc : c < w)
    (hnm : get_v (gget (computeCounts w h f1) r c) ≠ 0x0f) :
    get_v (gget (computeCounts w h f1) r c)
      = ((List.range h).map (fun a =>
          ((List.range w).filter (fun b =>
            (!((a == r) && (b == c))) && decide (a ≤ r + 1) && decide (r ≤ a + 1) &&
            decide (b ≤ c + 1) && decide (c ≤ b + 1) &&
            (get_v (gget (computeCounts w h f1) a b) == 0x0f))).length)).sum := by
  have hmm : is_mine (gget f1 r c) = false := by
    by_contra hmt
    rw [Bool.not_eq_false] at hmt
    rw [computeCounts_gget hwf1 hr hc, if_pos hmt] at hnm
    have hbyte : gget f1 r c = 0x0f := beq_iff_eq.mp hmt
    rw [hbyte] at hnm
    exact hnm rfl
  rw [computeCounts_gget hwf1 hr hc, if_neg (by rw [hmm]; exact Bool.false_ne_true)]
  rw [get_v_small (by have := get_k_lt w h f1 r c; omega)]
  rw [get_k_eq_window hwf1 hr hc]
  apply congrArg
  apply List.map_congr_left
  intro a ha
  rw [List.mem_range] at ha
  apply congrArg
  apply List.filter_congr
  intro b hb
  rw [List.mem_range] at hb
  have hpt : is_mine (gget f1 a b) = (get_v (gget (computeCounts w h f1) a b) == 0x0f) := by
    rw [computeCounts_gget hwf1 ha hb]
    by_cases hmab : is_mine (gget f1 a b) = true
    · rw [if_pos hmab, hmab]
      have hbyte : gget f1 a b = 0x0f := beq_iff_eq.mp hmab
      rw [hbyte]
      rfl
    · rw [if_neg hmab]
      have h1 := get_k_lt w h f1 a b
      rw [get_v_small (by omega)]
      rw [Bool.eq_false_iff.mpr hmab]
      exact (beq_eq_false_iff_ne.mpr (by omega)).symm
  rw [hpt]

/-- Claim C6: after mine placement, every non-mine cell's value nibble is
the exact number of mine-valued cells among its up-to-8 neighbors, clipped
(not wrapped) at the board edges. -/
theorem claim6_adjacency (mf : MineField) (p : List Nat)
    (hw : WFGrid mf.w mf.h mf.f) (r c : Nat) (hr : r < mf.h) (hc : c < mf.w)
    (hnm : get_v (gget (mf.start p).f r c) ≠ 0x0f) :
    get_v (gget (mf.start p).f r c) = adjMineCount (mf.start p) r c := by
  have hwf1 : WFGrid mf.w mf.h (placeList (decide (mf.m ≥ mf.w * mf.h)) mf.w mf.m mf.r mf.c
      (p.take (mf.m + 1)) 0 mf.f) := WFGrid_placeList _ _ _ _ _ 0 _ hw
  have hnm2 : get_v (gget (computeCounts mf.w mf.h (placeList (decide (mf.m ≥ mf.w * mf.h))
      mf.w mf.m mf.r mf.c (p.take (mf.m + 1)) 0 mf.f)) r c) ≠ 0x0f := hnm
  exact computeCounts_adjacency hwf1 hr hc hnm2

/-- Closed witness for C6: the 1×3 board with permutation `[1, 0, 2]` (mine
in the middle); the two outer cells each read adjacency count 1. -/
theorem claim6_witness :
    get_v (gget ((MineField.new 3 1 1).start [1, 0, 2]).f 0 0)
      = adjMineCount ((MineField.new 3 1 1).start [1, 0, 2]) 0 0 := by
  exact claim6_adjacency (MineField.new 3 1 1) [1, 0, 2] ⟨by decide, by decide⟩ 0 0
    (by decide) (by decide) (by decide)

/-! The flood fill: basic shape of `openF`. -/

theorem openF_succ (fuel : Nat) (mf : MineField) (r c : Nat) :
    openF (fuel + 1) mf r c =
      if is_mine (get_v (gget mf.f r c)) then (false, mf)
      else if get_v (gget mf.f r c) = 0 then
        (true, (nbrs mf.w mf.h r c).foldl (openStep fuel)
          { mf with f := gset mf.f r c (set_o (gget mf.f r c) false), s := mf.s + 1 })
      else (true, { mf with f := gset mf.f r c (set_o (gget mf.f r c) false), s := mf.s + 1 }) :=
  rfl

theorem openF_nonmine_fst {fuel : Nat} {mf : MineField} {r c : Nat}
    (hnm : get_v (gget mf.f r c) ≠ 0x0f) :
    (openF (fuel + 1) mf r c).1 = true := by
  rw [openF_succ]
  rw [if_neg (by
    intro hmt
    exact hnm (beq_iff_eq.mp hmt))]
  split <;> rfl

theorem openF_mine_any {fuel : Nat} {mf : MineField} {r c : Nat}
    (hm : get_v (gget mf.f r c) = 0x0f) :
    (openF fuel mf r c).2 = mf := by
  cases fuel with
  | zero => rfl
  | succ fuel => rw [openF_mine hm]

theorem OpenRel_refl (mf : MineField) : OpenRel mf mf := by
  refine ⟨rfl, rfl, rfl, rfl, rfl, rfl, rfl, rfl, Nat.le_refl _, rfl, fun j => rfl, ?_⟩
  intro j i
  left
  rfl

theorem OpenRel_trans {mf1 mf2 mf3 : MineField}
    (h12 : OpenRel mf1 mf2) (h23 : OpenRel mf2 mf3) : OpenRel mf1 mf3 := by
  obtain ⟨hw2, hh2, hm2, hr2, hc2, hb2, ht2, hms2, hs2, hl2, hrl2, hcell2⟩ := h12
  obtain ⟨hw3, hh3, hm3, hr3, hc3, hb3, ht3, hms3, hs3, hl3, hrl3, hcell3⟩ := h23
  refine ⟨hw3.trans hw2, hh3.trans hh2, hm3.trans hm2, hr3.trans hr2, hc3.trans hc2,
    hb3.trans hb2, ht3.trans ht2, hms3.trans hms2, hs2.trans hs3, hl3.trans hl2,
    fun j => (hrl3 j).trans (hrl2 j), ?_⟩
  intro j i
  rcases hcell3 j i with h3 | ⟨ho3, hv3, h3⟩
  · rw [h3]
    exact hcell2 j i
  · rcases hcell2 j i with h2 | ⟨ho2, hv2, h2⟩
    · rw [h2] at h3 ho3 hv3
      right
      exact ⟨ho3, hv3, h3⟩
    · rw [h2] at ho3
      rw [is_o_set_o] at ho3
      cases ho3

theorem OpenRel_mf1 {mf : MineField} {r c : Nat} (hnm : get_v (gget mf.f r c) ≠ 0x0f) :
    OpenRel mf { mf with f := gset mf.f r c (set_o (gget mf.f r c) false), s := mf.s + 1 } := by
  refine ⟨rfl, rfl, rfl, rfl, rfl, rfl, rfl, rfl, Nat.le_succ _, ?_, ?_, ?_⟩
  · show (gset mf.f r c _).length = mf.f.length
    unfold gset
    exact List.length_set mf.f r _
  · intro j
    show ((gset mf.f r c _).getD j []).length = (mf.f.getD j []).length
    unfold gset
    rcases eq_or_ne r j with rfl | hne
    · rcases Nat.lt_or_ge r mf.f.length with hlt | hge
      · rw [getD_set_self hlt]
        exact List.length_set _ _ _
      · rw [List.set_eq_of_length_le hge]
    · rw [getD_set_ne _ hne]
  · intro j i
    show gget (gset mf.f r c _) j i = _ ∨ _
    by_cases hji : r = j ∧ c = i
    · obtain ⟨rfl, rfl⟩ := hji
      by_cases ho : is_o (gget mf.f r c) = true
      · left
        rw [set_o_opened ho false]
        rcases gget_gset_cases mf.f r c (gget mf.f r c) r c with h1 | h1 <;> exact h1
      · rcases gget_gset_cases mf.f r c (set_o (gget mf.f r c) false) r c with h1 | h1
        · left
          exact h1
        · right
          exact ⟨Bool.eq_false_iff.mpr ho, hnm, h1⟩
    · left
      apply gget_gset_ne
      rcases Decidable.em (r = j) with hr | hr
      · right
        intro hcc
        exact hji ⟨hr, hcc⟩
      · left
        exact hr

theorem foldl_OpenRel {fuel : Nat}
    (ih : ∀ (mf : MineField) (r c : Nat), OpenRel mf (openF fuel mf r c).2) :
    ∀ (l : List (Nat × Nat)) (acc : MineField),
      OpenRel acc (l.foldl (openStep fuel) acc) := by
  intro l
  induction l with
  | nil => intro acc; exact OpenRel_refl acc
  | cons q tl ihl =>
    intro acc
    rw [List.foldl_cons]
    refine OpenRel_trans ?_ (ihl _)
    unfold openStep
    split
    · exact OpenRel_refl acc
    · exact ih acc q.1 q.2

theorem OpenRel_openF : ∀ (fuel : Nat) (mf : MineField) (r c : Nat),
    OpenRel mf (openF fuel mf r c).2 := by
  intro fuel
  induction fuel with
  | zero => intro mf r c; exact OpenRel_refl mf
  | succ fuel ih =>
    intro mf r c
    rw [openF_succ]
    by_cases hm : is_mine (get_v (gget mf.f r c)) = true
    · rw [if_pos hm]
      exact OpenRel_refl mf
    · rw [if_neg hm]
      have hnm : get_v (gget mf.f r c) ≠ 0x0f := by
        intro hEq
        exact hm (by rw [hEq]; rfl)
      by_cases hz : get_v (gget mf.f r c) = 0
      · rw [if_pos hz]
        exact OpenRel_trans (OpenRel_mf1 hnm) (foldl_OpenRel ih _ _)
      · rw [if_neg hz]
        exact OpenRel_mf1 hnm

theorem OpenRel_WFGrid {mf mf' : MineField} (hrel : OpenRel mf mf')
    (hw : WFGrid mf.w mf.h mf.f) : WFGrid mf'.w mf'.h mf'.f := by
  obtain ⟨hw2, hh2, _, _, _, _, _, _, _, hl, hrl, _⟩ := hrel
  constructor
  · rw [hh2, hl]
    exact hw.1
  · intro row hrow
    rcases List.mem_iff_getElem.mp hrow with ⟨j, hj, heq⟩
    have hjh : j < mf.h := by
      rw [← hw.1, ← hl]
      exact hj
    have hgd : mf'.f.getD j [] = row := by
      rw [getD_eq_getElem_row hj, heq]
    rw [hw2, ← hgd, hrl j]
    exact row_len hw hjh

/-! Membership in the clipped neighborhood. -/

theorem nbrs_mem {w h r c : Nat} (hr : r < h) (hc : c < w) (a b : Nat) :
    (a, b) ∈ nbrs w h r c ↔
      ¬(a = r ∧ b = c) ∧ a < h ∧ b < w ∧ a ≤ r + 1 ∧ r ≤ a + 1 ∧ b ≤ c + 1 ∧ c ≤ b + 1 := by
  simp only [nbrs]
  constructor
  · intro hmem
    rcases List.mem_flatMap.mp hmem with ⟨j, hj, hin⟩
    rcases List.mem_map.mp hj with ⟨x, hx, rfl⟩
    rw [List.mem_range] at hx
    rw [filterMap_center] at hin
    rcases List.mem_map.mp hin with ⟨i, hi, heq⟩
    rcases List.mem_filter.mp hi with ⟨hi2, hcen⟩
    rcases List.mem_map.mp hi2 with ⟨y, hy, rfl⟩
    rw [List.mem_range] at hy
    have ha : x + (if r > 0 then r - 1 else r) = a := congrArg Prod.fst heq
    have hb : y + (if c > 0 then c - 1 else c) = b := congrArg Prod.snd heq
    have hnec : ¬(x + (if r > 0 then r - 1 else r) = r ∧
        y + (if c > 0 then c - 1 else c) = c) := by
      intro hand
      rw [decide_eq_true hand] at hcen
      cases hcen
    rw [ha, hb] at hnec
    refine ⟨hnec, ?_, ?_, ?_, ?_, ?_, ?_⟩ <;>
      · rw [← ha, ← hb] at *
        revert hx hy
        split_ifs <;> omega
  · intro hfacts
    obtain ⟨hne, hah, hbw, h1, h2, h3, h4⟩ := hfacts
    rw [List.mem_flatMap]
    refine ⟨a, ?_, ?_⟩
    · rw [List.mem_map]
      refine ⟨a - (if r > 0 then r - 1 else r), ?_, ?_⟩
      · rw [List.mem_range]
        split_ifs <;> omega
      · split_ifs <;> omega
    · rw [filterMap_center, List.mem_map]
      refine ⟨b, ?_, rfl⟩
      rw [List.mem_filter]
      constructor
      · rw [List.mem_map]
        refine ⟨b - (if c > 0 then c - 1 else c), ?_, ?_⟩
        · rw [List.mem_range]
          split_ifs <;> omega
        · split_ifs <;> omega
      · rw [decide_eq_false hne]
        rfl

theorem nbrs_bounds {w h r c : Nat} (hr : r < h) (hc : c < w) {a b : Nat}
    (hmem : (a, b) ∈ nbrs w h r c) : a < h ∧ b < w := by
  have := (nbrs_mem hr hc a b).mp hmem
  exact ⟨this.2.1, this.2.2.1⟩

/-! Bookkeeping: each newly opened cell pairs a `s += 1` with one closed
non-mine byte turning into an opened non-mine byte. -/

theorem stat_add (k d : Nat) (su ex : Bool) : statOf k su ex + d = statOf (k + d) su ex := by
  cases su <;> cases ex <;> simp [statOf] <;> omega

theorem stat_ge {k : Nat} (hk : k < 0x4000) (su ex : Bool) :
    0x4000 ≤ statOf k su ex ↔ (su = true ∨ ex = true) := by
  cases su <;> cases ex <;>
    simp only [statOf, Bool.toNat_true, Bool.toNat_false, Bool.false_eq_true, false_or,
      or_false, or_self, iff_true, iff_false, eq_self_iff_true, true_or] <;>
    omega

theorem stat_zero {k : Nat} (su ex : Bool) :
    statOf k su ex = 0 ↔ (k = 0 ∧ su = false ∧ ex = false) := by
  cases su <;> cases ex <;>
    simp only [statOf, Bool.toNat_true, Bool.toNat_false, Bool.true_eq_false, and_false,
      and_true, iff_false, eq_self_iff_true] <;>
    omega

theorem ponB_closed {u : Nat} (h : is_o u = false) : ponB u = false := by
  unfold ponB
  rw [h]
  rfl

theorem ponB_open_nonmine {u : Nat} (hnm : get_v u ≠ 0x0f) :
    ponB (set_o u false) = true := by
  unfold ponB
  rw [is_o_set_o, get_v_set_o]
  rw [beq_eq_false_iff_ne.mpr hnm]
  rfl

theorem pnoB_closed {u : Nat} (h : is_o u = false) : pnoB u = true := by
  unfold pnoB
  rw [h]
  rfl

theorem pnoB_open (u : Nat) (e : Bool) : pnoB (set_o u e) = false := by
  unfold pnoB
  rw [is_o_set_o]
  rfl

theorem openF_count : ∀ (fuel : Nat) (mf : MineField) (r c : Nat),
    WFGrid mf.w mf.h mf.f → r < mf.h → c < mf.w → is_o (gget mf.f r c) = false →
    ((openF fuel mf r c).2.s + gridCountP ponB mf.f
        = mf.s + gridCountP ponB (openF fuel mf r c).2.f) ∧
    (mf.s + gridCountP pnoB mf.f
        = (openF fuel mf r c).2.s + gridCountP pnoB (openF fuel mf r c).2.f) := by
  intro fuel
  induction fuel with
  | zero => intro mf r c _ _ _ _; exact ⟨rfl, rfl⟩
  | succ fuel ih =>
    intro mf r c hw hr hc hcl
    have foldc : ∀ (l : List (Nat × Nat)) (acc : MineField), WFGrid acc.w acc.h acc.f →
        (∀ q ∈ l, q.1 < acc.h ∧ q.2 < acc.w) →
        ((l.foldl (openStep fuel) acc).s + gridCountP ponB acc.f
            = acc.s + gridCountP ponB (l.foldl (openStep fuel) acc).f) ∧
        (acc.s + gridCountP pnoB acc.f
            = (l.foldl (openStep fuel) acc).s + gridCountP pnoB (l.foldl (openStep fuel) acc).f) := by
      intro l
      induction l with
      | nil => intro acc _ _; exact ⟨rfl, rfl⟩
      | cons q tl ihl =>
        intro acc hwacc hbnd
        rw [List.foldl_cons]
        have hqb := hbnd q (List.mem_cons_self q tl)
        by_cases hop : acc.is_opened q.1 q.2 = true
        · rw [show openStep fuel acc q = acc by unfold openStep; rw [if_pos hop]]
          exact ihl acc hwacc (fun x hx => hbnd x (List.mem_cons_of_mem q hx))
        · rw [show openStep fuel acc q = (openF fuel acc q.1 q.2).2 by
            unfold openStep; rw [if_neg hop]]
          have hcl2 : is_o (gget acc.f q.1 q.2) = false := by
            rw [← Bool.not_eq_true]
            exact hop
          have h1 := ih acc q.1 q.2 hwacc hqb.1 hqb.2 hcl2
          set acc2 := (openF fuel acc q.1 q.2).2 with hacc2
          have hrel := OpenRel_openF fuel acc q.1 q.2
          have hw2 : WFGrid acc2.w acc2.h acc2.f := OpenRel_WFGrid hrel hwacc
          have hbnd2 : ∀ x ∈ tl, x.1 < acc2.h ∧ x.2 < acc2.w := by
            intro x hx
            rw [hrel.2.1, hrel.1]
            exact hbnd x (List.mem_cons_of_mem q hx)
          have h2 := ihl acc2 hw2 hbnd2
          exact ⟨by omega, by omega⟩
    rw [openF_succ]
    by_cases hm : is_mine (get_v (gget mf.f r c)) = true
    · rw [if_pos hm]
      exact ⟨rfl, rfl⟩
    · rw [if_neg hm]
      have hnm : get_v (gget mf.f r c) ≠ 0x0f := by
        intro hEq
        exact hm (by rw [hEq]; rfl)
      set mf1 : MineField :=
        { mf with f := gset mf.f r c (set_o (gget mf.f r c) false), s := mf.s + 1 } with hmf1
      have hwf1 : WFGrid mf1.w mf1.h mf1.f := WFGrid_gset hw _ _ _
      have hcnt := gridCountP_gset ponB hw hr hc (set_o (gget mf.f r c) false)
      have hcnt2 := gridCountP_gset pnoB hw hr hc (set_o (gget mf.f r c) false)
      rw [ponB_closed hcl, ponB_open_nonmine hnm] at hcnt
      rw [pnoB_closed hcl, pnoB_open _ _] at hcnt2
      norm_num at hcnt hcnt2
      have hEf : gset mf.f r c (set_o (gget mf.f r c) false) = mf1.f := rfl
      rw [hEf] at hcnt hcnt2
      have hs1 : mf1.s = mf.s + 1 := rfl
      by_cases hz : get_v (gget mf.f r c) = 0
      · rw [if_pos hz]
        have hbnd1 : ∀ q ∈ nbrs mf.w mf.h r c, q.1 < mf1.h ∧ q.2 < mf1.w := by
          intro q hq
          exact nbrs_bounds hr hc (by
            rcases q with ⟨a, b⟩
            exact hq)
        have hf := foldc (nbrs mf.w mf.h r c) mf1 hwf1 hbnd1
        constructor
        · show (List.foldl (openStep fuel) mf1 (nbrs mf.w mf.h r c)).s + gridCountP ponB mf.f
              = mf.s + gridCountP ponB (List.foldl (openStep fuel) mf1 (nbrs mf.w mf.h r c)).f
          omega
        · show mf.s + gridCountP pnoB mf.f
              = (List.foldl (openStep fuel) mf1 (nbrs mf.w mf.h r c)).s +
                gridCountP pnoB (List.foldl (openStep fuel) mf1 (nbrs mf.w mf.h r c)).f
          omega
      · rw [if_neg hz]
        constructor
        · show mf1.s + gridCountP ponB mf.f = mf.s + gridCountP ponB mf1.f
          omega
        · show mf.s + gridCountP pnoB mf.f = mf1.s + gridCountP pnoB mf1.f
          omega

/-! Preservation of the reachability invariant. -/

theorem gridCountP_le {w h : Nat} {f : List (List Nat)} (hw : WFGrid w h f)
    (p : Nat → Bool) : gridCountP p f ≤ w * h := by
  unfold gridCountP
  have hb : ∀ x ∈ f.map (fun row => row.countP p), x ≤ w := by
    intro x hx
    rcases List.mem_map.mp hx with ⟨row, hrow, rfl⟩
    have h1 := List.countP_le_length p (l := row)
    rw [hw.2 row hrow] at h1
    exact h1
  have h2 := List.sum_le_card_nsmul _ w hb
  rw [List.length_map, hw.1, smul_eq_mul, Nat.mul_comm] at h2
  exact h2

theorem gridCountP_zero_of_pointwise {w h : Nat} {f : List (List Nat)} (hw : WFGrid w h f)
    {p : Nat → Bool} (hp : ∀ j i, j < h → i < w → p (gget f j i) = false) :
    gridCountP p f = 0 := by
  unfold gridCountP
  apply List.sum_eq_zero
  intro x hx
  rcases List.mem_map.mp hx with ⟨row, hrow, rfl⟩
  rw [List.countP_eq_zero]
  intro u hu
  rcases List.mem_iff_getElem.mp hrow with ⟨j, hj, heqr⟩
  rcases List.mem_iff_getElem.mp hu with ⟨i, hi, hequ⟩
  have hjh : j < h := by rw [← hw.1]; exact hj
  have hiw : i < w := by
    rw [← hw.2 row hrow]
    exact hi
  have hg : gget f j i = u := by
    unfold gget
    rw [getD_eq_getElem_row hj, heqr, List.getD_eq_getElem?_getD,
      List.getElem?_eq_getElem hi, Option.getD_some, hequ]
  intro hpu
  rw [← hg, hp j i hjh hiw] at hpu
  exact Bool.false_ne_true hpu

theorem computeCounts_unopened {w h : Nat} {f : List (List Nat)} (hw : WFGrid w h f)
    {j i : Nat} (hj : j < h) (hi : i < w) :
    is_o (gget (computeCounts w h f) j i) = false := by
  rw [computeCounts_gget hw hj hi]
  by_cases hm : is_mine (gget f j i) = true
  · rw [if_pos hm, beq_iff_eq.mp hm]
    decide
  · rw [if_neg hm]
    exact is_o_small (by have := get_k_lt w h f j i; omega)

theorem WFGrid_start {mf : MineField} (hw : WFGrid mf.w mf.h mf.f) (p : List Nat) :
    WFGrid mf.w mf.h (mf.start p).f := by
  rw [start_eq]
  exact WFGrid_computeCounts (WFGrid_placeList _ _ _ _ _ 0 _ hw)

theorem start_unopened {mf : MineField} (hw : WFGrid mf.w mf.h mf.f) (p : List Nat)
    {j i : Nat} (hj : j < mf.h) (hi : i < mf.w) :
    is_o (gget (mf.start p).f j i) = false := by
  rw [start_eq]
  exact computeCounts_unopened (WFGrid_placeList _ _ _ _ _ 0 _ hw) hj hi

theorem WFGrid_ending {mf : MineField} (hw : WFGrid mf.w mf.h mf.f) :
    WFGrid mf.w mf.h mf.ending.f := by
  constructor
  · show (mf.f.map _).length = mf.h
    rw [List.length_map]
    exact hw.1
  · intro row hrow
    rcases List.mem_map.mp hrow with ⟨row0, hrow0, rfl⟩
    rw [List.length_map]
    exact hw.2 row0 hrow0

theorem ending_gget {mf : MineField} (hw : WFGrid mf.w mf.h mf.f)
    {j i : Nat} (hj : j < mf.h) (hi : i < mf.w) :
    gget mf.ending.f j i = set_o (gget mf.f j i) true := by
  have hjf : j < mf.f.length := by rw [hw.1]; exact hj
  have hif : i < (mf.f[j]).length := by
    rw [← getD_eq_getElem_row hjf, row_len hw hj]
    exact hi
  have h1 : (mf.f.map (fun v => v.map (fun u => set_o u true))).getD j []
      = (mf.f.getD j []).map (fun u => set_o u true) := by
    rw [List.getD_eq_getElem?_getD, List.getElem?_map, List.getD_eq_getElem?_getD]
    cases mf.f[j]? <;> rfl
  have hL : gget (mf.f.map (fun v => v.map (fun u => set_o u true))) j i
      = set_o (mf.f[j][i]) true := by
    unfold gget
    rw [h1, getD_eq_getElem_row hjf, List.getD_eq_getElem?_getD, List.getElem?_map,
      List.getElem?_eq_getElem hif]
    rfl
  have hR : gget mf.f j i = mf.f[j][i] := gget_eq_getElem hjf hif
  show gget (mf.f.map (fun v => v.map (fun u => set_o u true))) j i
      = set_o (gget mf.f j i) true
  rw [hL, hR]

theorem clickA_opened {mf : MineField} (hop : mf.is_opened mf.r mf.c = true) :
    mf.clickAfterStart = (true, mf) := by
  unfold MineField.clickAfterStart
  rw [hop]
  rw [if_neg (show ¬(!true) = true from by simp)]

theorem clickA_mine {mf : MineField} (hop : mf.is_opened mf.r mf.c = false)
    (hm : get_v (gget mf.f mf.r mf.c) = 0x0f) :
    mf.clickAfterStart = (true, mf.explosion) := by
  unfold MineField.clickAfterStart
  rw [hop]
  rw [if_pos (show (!false) = true from rfl)]
  have h1 : mf.openCell mf.r mf.c = (false, mf) := openF_mine hm
  rw [h1]
  rfl

theorem clickA_open {mf : MineField} (hop : mf.is_opened mf.r mf.c = false)
    (hnm : get_v (gget mf.f mf.r mf.c) ≠ 0x0f) :
    mf.clickAfterStart =
      (true, if ((mf.openCell mf.r mf.c).2.s + (mf.openCell mf.r mf.c).2.m ==
          (mf.openCell mf.r mf.c).2.w * (mf.openCell mf.r mf.c).2.h) = true
        then (mf.openCell mf.r mf.c).2.success else (mf.openCell mf.r mf.c).2) := by
  unfold MineField.clickAfterStart
  rw [hop]
  rw [if_pos (show (!false) = true from rfl)]
  have h1 : (mf.openCell mf.r mf.c).1 = true := openF_nonmine_fst hnm
  rw [h1]
  rw [if_neg (show ¬(!true) = true from by simp)]
  by_cases hbeq : ((mf.openCell mf.r mf.c).2.s + (mf.openCell mf.r mf.c).2.m ==
      (mf.openCell mf.r mf.c).2.w * (mf.openCell mf.r mf.c).2.h) = true
  · rw [if_pos hbeq, if_pos hbeq]
  · rw [if_neg hbeq, if_neg hbeq]

/-! Dimension preservation of every public operation, and the geometric
invariant, which holds on reachable boards of every size. -/

theorem up_dims (mf : MineField) : mf.up.w = mf.w ∧ mf.up.h = mf.h := by
  unfold MineField.up
  split_ifs <;> exact ⟨rfl, rfl⟩

theorem down_dims (mf : MineField) : mf.down.w = mf.w ∧ mf.down.h = mf.h := by
  unfold MineField.down
  split_ifs <;> exact ⟨rfl, rfl⟩

theorem left_dims (mf : MineField) : mf.left.w = mf.w ∧ mf.left.h = mf.h := by
  unfold MineField.left
  split_ifs <;> exact ⟨rfl, rfl⟩

theorem right_dims (mf : MineField) : mf.right.w = mf.w ∧ mf.right.h = mf.h := by
  unfold MineField.right
  split_ifs <;> exact ⟨rfl, rfl⟩

theorem tick_dims (mf : MineField) : mf.tick.w = mf.w ∧ mf.tick.h = mf.h := by
  have h : mf.tick = if mf.t + 1 = mf.b / 2 then { mf with t := mf.t + 1 }
      else if mf.t + 1 ≥ mf.b then { mf with t := 0 } else { mf with t := mf.t + 1 } := rfl
  rw [h]
  split_ifs <;> exact ⟨rfl, rfl⟩

theorem update_m_dims (mf : MineField) (x y : Nat) :
    (mf.update_m x y).2.w = mf.w ∧ (mf.update_m x y).2.h = mf.h := by
  unfold MineField.update_m
  split_ifs <;> exact ⟨rfl, rfl⟩

theorem clickA_dims (mf : MineField) :
    mf.clickAfterStart.2.w = mf.w ∧ mf.clickAfterStart.2.h = mf.h := by
  have h1 := (OpenRel_openF (unopenedCnt mf + 1) mf mf.r mf.c).1
  have h2 := (OpenRel_openF (unopenedCnt mf + 1) mf mf.r mf.c).2.1
  unfold MineField.clickAfterStart
  split_ifs <;> first
    | exact ⟨h1, h2⟩
    | exact ⟨rfl, rfl⟩

theorem click_dims (mf : MineField) (p : List Nat) :
    (mf.click p).2.w = mf.w ∧ (mf.click p).2.h = mf.h := by
  unfold MineField.click
  by_cases hs0 : (mf.s == 0) = true
  · rw [if_pos hs0]
    exact clickA_dims (mf.start p)
  · rw [if_neg hs0]
    exact clickA_dims mf

theorem GInv_clickA {mf : MineField} (hg : GInv mf) : GInv mf.clickAfterStart.2 := by
  obtain ⟨hw0, hh0, hwf, hr, hc⟩ := hg
  by_cases hop : mf.is_opened mf.r mf.c = true
  · rw [clickA_opened hop]
    exact ⟨hw0, hh0, hwf, hr, hc⟩
  · have hop2 : mf.is_opened mf.r mf.c = false := by
      rwa [Bool.not_eq_true] at hop
    by_cases hm : get_v (gget mf.f mf.r mf.c) = 0x0f
    · rw [clickA_mine hop2 hm]
      exact ⟨hw0, hh0, hwf, hr, hc⟩
    · rw [clickA_open hop2 hm]
      have hwf2 : WFGrid (mf.openCell mf.r mf.c).2.w (mf.openCell mf.r mf.c).2.h
          (mf.openCell mf.r mf.c).2.f :=
        OpenRel_WFGrid (OpenRel_openF (unopenedCnt mf + 1) mf mf.r mf.c) hwf
      have hrel : OpenRel mf (mf.openCell mf.r mf.c).2 :=
        OpenRel_openF (unopenedCnt mf + 1) mf mf.r mf.c
      obtain ⟨hW, hH, _, hR, hC, _, _, _, _, _, _, _⟩ := hrel
      by_cases hbeq : ((mf.openCell mf.r mf.c).2.s + (mf.openCell mf.r mf.c).2.m ==
          (mf.openCell mf.r mf.c).2.w * (mf.openCell mf.r mf.c).2.h) = true
      · rw [if_pos hbeq]
        refine ⟨?_, ?_, hwf2, ?_, ?_⟩
        · show 0 < (mf.openCell mf.r mf.c).2.w
          rw [hW]; exact hw0
        · show 0 < (mf.openCell mf.r mf.c).2.h
          rw [hH]; exact hh0
        · show (mf.openCell mf.r mf.c).2.r < (mf.openCell mf.r mf.c).2.h
          rw [hR, hH]; exact hr
        · show (mf.openCell mf.r mf.c).2.c < (mf.openCell mf.r mf.c).2.w
          rw [hC, hW]; exact hc
      · rw [if_neg hbeq]
        refine ⟨?_, ?_, hwf2, ?_, ?_⟩
        · show 0 < (mf.openCell mf.r mf.c).2.w
          rw [hW]; exact hw0
        · show 0 < (mf.openCell mf.r mf.c).2.h
          rw [hH]; exact hh0
        · show (mf.openCell mf.r mf.c).2.r < (mf.openCell mf.r mf.c).2.h
          rw [hR, hH]; exact hr
        · show (mf.openCell mf.r mf.c).2.c < (mf.openCell mf.r mf.c).2.w
          rw [hC, hW]; exact hc

theorem GInv_start {mf : MineField} (hg : GInv mf) (p : List Nat) :
    GInv (mf.start p) :=
  ⟨hg.1, hg.2.1, WFGrid_start hg.2.2.1 p, hg.2.2.2.1, hg.2.2.2.2⟩

theorem GInv_click {mf : MineField} (hg : GInv mf) (p : List Nat) :
    GInv (mf.click p).2 := by
  unfold MineField.click
  by_cases hs0 : (mf.s == 0) = true
  · rw [if_pos hs0]
    exact GInv_clickA (GInv_start hg p)
  · rw [if_neg hs0]
    exact GInv_clickA hg

/-- Every reachable state has positive dimensions, a well-formed grid and
an in-range cursor — with no restriction on the board size. -/
theorem Reach_GInv : ∀ {b : Bool} {mf : MineField}, Reach b mf → GInv mf := by
  intro b mf h
  induction h with
  | init b w h m hw0 hh0 => exact ⟨hw0, hh0, WFGrid_new w h, hh0, hw0⟩
  | click b mf p _ _ ih => exact GInv_click ih p
  | up b mf _ ih =>
    obtain ⟨hw0, hh0, hwf, hr, hc⟩ := ih
    unfold MineField.up
    split_ifs
    · exact ⟨hw0, hh0, hwf, Nat.lt_of_le_of_lt (Nat.sub_le _ _) hr, hc⟩
    · exact ⟨hw0, hh0, hwf, hr, hc⟩
  | down b mf _ ih =>
    obtain ⟨hw0, hh0, hwf, hr, hc⟩ := ih
    unfold MineField.down
    split_ifs with h1
    · exact ⟨hw0, hh0, hwf, (by omega : mf.r + 1 < mf.h), hc⟩
    · exact ⟨hw0, hh0, hwf, hr, hc⟩
  | left b mf _ ih =>
    obtain ⟨hw0, hh0, hwf, hr, hc⟩ := ih
    unfold MineField.left
    split_ifs
    · exact ⟨hw0, hh0, hwf, hr, Nat.lt_of_le_of_lt (Nat.sub_le _ _) hc⟩
    · exact ⟨hw0, hh0, hwf, hr, hc⟩
  | right b mf _ ih =>
    obtain ⟨hw0, hh0, hwf, hr, hc⟩ := ih
    unfold MineField.right
    split_ifs with h1
    · exact ⟨hw0, hh0, hwf, hr, (by omega : mf.c + 1 < mf.w)⟩
    · exact ⟨hw0, hh0, hwf, hr, hc⟩
  | tick b mf _ ih =>
    obtain ⟨hw0, hh0, hwf, hr, hc⟩ := ih
    show GInv (if mf.t + 1 = mf.b / 2 then { mf with t := mf.t + 1 }
      else if mf.t + 1 ≥ mf.b then { mf with t := 0 } else { mf with t := mf.t + 1 })
    split_ifs <;> exact ⟨hw0, hh0, hwf, hr, hc⟩
  | update_m b mf x y _ ih =>
    obtain ⟨hw0, hh0, hwf, hr, hc⟩ := ih
    unfold MineField.update_m
    split_ifs with h1
    · exact ⟨hw0, hh0, hwf, h1.2, h1.1⟩
    · exact ⟨hw0, hh0, hwf, hr, hc⟩
  | ending mf _ ih =>
    exact ⟨ih.1, ih.2.1, WFGrid_ending ih.2.2.1, ih.2.2.2.1, ih.2.2.2.2⟩

/-- The reveal body preserves the invariant: a reveal on an already opened
target is a no-op; a mine target only ORs in the exploded bit; a closed
non-mine target runs the flood fill, whose every `s += 1` opens exactly one
closed non-mine cell (`openF_count`), and the optional success branch only
ORs in the succeeded bit. -/
theorem Inv_clickA {b : Bool} {mf : MineField} (hinv : Inv b mf) :
    Inv b mf.clickAfterStart.2 := by
  obtain ⟨hw0, hh0, hwh, hwf, hr, hc, k, su, ex, hs, hk, hbr⟩ := hinv
  by_cases hop : mf.is_opened mf.r mf.c = true
  · rw [clickA_opened hop]
    exact ⟨hw0, hh0, hwh, hwf, hr, hc, k, su, ex, hs, hk, hbr⟩
  · have hop2 : mf.is_opened mf.r mf.c = false := by
      rwa [Bool.not_eq_true] at hop
    have hk14 : k < 0x4000 := Nat.lt_of_le_of_lt hk hwh
    by_cases hm : get_v (gget mf.f mf.r mf.c) = 0x0f
    · rw [clickA_mine hop2 hm]
      refine ⟨hw0, hh0, hwh, hwf, hr, hc, k, su, true, ?_, hk, hbr⟩
      show mf.s ||| 0x8000 = statOf k su true
      rw [hs]
      exact stat_lor_expl hk14 su ex
    · rw [clickA_open hop2 hm]
      have hrel : OpenRel mf (mf.openCell mf.r mf.c).2 :=
        OpenRel_openF (unopenedCnt mf + 1) mf mf.r mf.c
      have hwf2 : WFGrid (mf.openCell mf.r mf.c).2.w (mf.openCell mf.r mf.c).2.h
          (mf.openCell mf.r mf.c).2.f :=
        OpenRel_WFGrid (OpenRel_openF (unopenedCnt mf + 1) mf mf.r mf.c) hwf
      obtain ⟨hW, hH, hM, hR, hC, hB, hT, hMS, hle, _, _, _⟩ := hrel
      have hcl : is_o (gget mf.f mf.r mf.c) = false := hop2
      have hcnt := (openF_count (unopenedCnt mf + 1) mf mf.r mf.c hwf hr hc hcl).1
      have hoc : mf.openCell mf.r mf.c = openF (unopenedCnt mf + 1) mf mf.r mf.c := rfl
      rw [← hoc] at hcnt
      have hkcnt : k = gridCountP ponB mf.f := by
        rcases hbr with h1 | ⟨_, hall⟩
        · exact h1
        · have h2 := hall mf.r mf.c hr hc
          rw [show is_o (gget mf.f mf.r mf.c) = mf.is_opened mf.r mf.c from rfl, hop2] at h2
          exact absurd h2 Bool.false_ne_true
      have hkc2 : k + ((mf.openCell mf.r mf.c).2.s - mf.s)
          = gridCountP ponB (mf.openCell mf.r mf.c).2.f := by omega
      have hs2 : (mf.openCell mf.r mf.c).2.s
          = statOf (k + ((mf.openCell mf.r mf.c).2.s - mf.s)) su ex := by
        rw [← stat_add, ← hs]
        omega
      have hk2 : k + ((mf.openCell mf.r mf.c).2.s - mf.s) ≤ mf.w * mf.h := by
        have h3 := gridCountP_le hwf2 ponB
        rw [hW, hH] at h3
        omega
      have hk14b : k + ((mf.openCell mf.r mf.c).2.s - mf.s) < 0x4000 :=
        Nat.lt_of_le_of_lt hk2 hwh
      by_cases hbeq : ((mf.openCell mf.r mf.c).2.s + (mf.openCell mf.r mf.c).2.m ==
          (mf.openCell mf.r mf.c).2.w * (mf.openCell mf.r mf.c).2.h) = true
      · rw [if_pos hbeq]
        refine ⟨?_, ?_, ?_, ?_, ?_, ?_,
          k + ((mf.openCell mf.r mf.c).2.s - mf.s), true, ex, ?_, ?_, Or.inl ?_⟩
        · show 0 < (mf.openCell mf.r mf.c).2.w
          rw [hW]; exact hw0
        · show 0 < (mf.openCell mf.r mf.c).2.h
          rw [hH]; exact hh0
        · show (mf.openCell mf.r mf.c).2.w * (mf.openCell mf.r mf.c).2.h < 0x4000
          rw [hW, hH]; exact hwh
        · exact hwf2
        · show (mf.openCell mf.r mf.c).2.r < (mf.openCell mf.r mf.c).2.h
          rw [hR, hH]; exact hr
        · show (mf.openCell mf.r mf.c).2.c < (mf.openCell mf.r mf.c).2.w
          rw [hC, hW]; exact hc
        · show (mf.openCell mf.r mf.c).2.s ||| 0x4000
            = statOf (k + ((mf.openCell mf.r mf.c).2.s - mf.s)) true ex
          conv_lhs => rw [hs2]
          exact stat_lor_succ hk14b su ex
        · show k + ((mf.openCell mf.r mf.c).2.s - mf.s)
            ≤ (mf.openCell mf.r mf.c).2.w * (mf.openCell mf.r mf.c).2.h
          rw [hW, hH]; exact hk2
        · exact hkc2
      · rw [if_neg hbeq]
        refine ⟨?_, ?_, ?_, ?_, ?_, ?_,
          k + ((mf.openCell mf.r mf.c).2.s - mf.s), su, ex, hs2, ?_, Or.inl hkc2⟩
        · show 0 < (mf.openCell mf.r mf.c).2.w
          rw [hW]; exact hw0
        · show 0 < (mf.openCell mf.r mf.c).2.h
          rw [hH]; exact hh0
        · show (mf.openCell mf.r mf.c).2.w * (mf.openCell mf.r mf.c).2.h < 0x4000
          rw [hW, hH]; exact hwh
        · exact hwf2
        · show (mf.openCell mf.r mf.c).2.r < (mf.openCell mf.r mf.c).2.h
          rw [hR, hH]; exact hr
        · show (mf.openCell mf.r mf.c).2.c < (mf.openCell mf.r mf.c).2.w
          rw [hC, hW]; exact hc
        · show k + ((mf.openCell mf.r mf.c).2.s - mf.s)
            ≤ (mf.openCell mf.r mf.c).2.w * (mf.openCell mf.r mf.c).2.h
          rw [hW, hH]; exact hk2

/-- `start` preserves the invariant when it runs where `click` calls it:
on a board with `s = 0`.  The rebuilt grid is well-formed and fully closed,
so the counter 0 agrees with the 0 opened non-mine cells. -/
theorem Inv_start {b : Bool} {mf : MineField} (hinv : Inv b mf) (hs0 : mf.s = 0)
    (p : List Nat) : Inv b (mf.start p) := by
  obtain ⟨hw0, hh0, hwh, hwf, hr, hc, _, _, _, _, _, _⟩ := hinv
  refine ⟨hw0, hh0, hwh, WFGrid_start hwf p, hr, hc, 0, false, false, ?_,
    Nat.zero_le _, Or.inl ?_⟩
  · show mf.s = statOf 0 false false
    rw [hs0]
    rfl
  · exact (gridCountP_zero_of_pointwise (WFGrid_start hwf p)
      (fun j i hj hi => ponB_closed (start_unopened hwf p hj hi))).symm

theorem Inv_click {b : Bool} {mf : MineField} (hinv : Inv b mf) (p : List Nat) :
    Inv b (mf.click p).2 := by
  unfold MineField.click
  by_cases hs0 : (mf.s == 0) = true
  · rw [if_pos hs0]
    exact Inv_clickA (Inv_start hinv (beq_iff_eq.mp hs0) p)
  · rw [if_neg hs0]
    exact Inv_clickA hinv

theorem Inv_up {b : Bool} {mf : MineField} (hinv : Inv b mf) : Inv b mf.up := by
  obtain ⟨hw0, hh0, hwh, hwf, hr, hc, k, su, ex, hs, hk, hbr⟩ := hinv
  unfold MineField.up
  split_ifs with h
  · exact ⟨hw0, hh0, hwh, hwf, Nat.lt_of_le_of_lt (Nat.sub_le _ _) hr, hc,
      k, su, ex, hs, hk, hbr⟩
  · exact ⟨hw0, hh0, hwh, hwf, hr, hc, k, su, ex, hs, hk, hbr⟩

theorem Inv_down {b : Bool} {mf : MineField} (hinv : Inv b mf) : Inv b mf.down := by
  obtain ⟨hw0, hh0, hwh, hwf, hr, hc, k, su, ex, hs, hk, hbr⟩ := hinv
  unfold MineField.down
  split_ifs with h
  · exact ⟨hw0, hh0, hwh, hwf, (by omega : mf.r + 1 < mf.h), hc, k, su, ex, hs, hk, hbr⟩
  · exact ⟨hw0, hh0, hwh, hwf, hr, hc, k, su, ex, hs, hk, hbr⟩

theorem Inv_left {b : Bool} {mf : MineField} (hinv : Inv b mf) : Inv b mf.left := by
  obtain ⟨hw0, hh0, hwh, hwf, hr, hc, k, su, ex, hs, hk, hbr⟩ := hinv
  unfold MineField.left
  split_ifs with h
  · exact ⟨hw0, hh0, hwh, hwf, hr, Nat.lt_of_le_of_lt (Nat.sub_le _ _) hc,
      k, su, ex, hs, hk, hbr⟩
  · exact ⟨hw0, hh0, hwh, hwf, hr, hc, k, su, ex, hs, hk, hbr⟩

theorem Inv_right {b : Bool} {mf : MineField} (hinv : Inv b mf) : Inv b mf.right := by
  obtain ⟨hw0, hh0, hwh, hwf, hr, hc, k, su, ex, hs, hk, hbr⟩ := hinv
  unfold MineField.right
  split_ifs with h
  · exact ⟨hw0, hh0, hwh, hwf, hr, (by omega : mf.c + 1 < mf.w), k, su, ex, hs, hk, hbr⟩
  · exact ⟨hw0, hh0, hwh, hwf, hr, hc, k, su, ex, hs, hk, hbr⟩

theorem Inv_tick {b : Bool} {mf : MineField} (hinv : Inv b mf) : Inv b mf.tick := by
  obtain ⟨hw0, hh0, hwh, hwf, hr, hc, k, su, ex, hs, hk, hbr⟩ := hinv
  show Inv b (if mf.t + 1 = mf.b / 2 then { mf with t := mf.t + 1 }
    else if mf.t + 1 ≥ mf.b then { mf with t := 0 } else { mf with t := mf.t + 1 })
  split_ifs <;> exact ⟨hw0, hh0, hwh, hwf, hr, hc, k, su, ex, hs, hk, hbr⟩

theorem Inv_update_m {b : Bool} {mf : MineField} (hinv : Inv b mf) (x y : Nat) :
    Inv b (mf.update_m x y).2 := by
  obtain ⟨hw0, hh0, hwh, hwf, hr, hc, k, su, ex, hs, hk, hbr⟩ := hinv
  unfold MineField.update_m
  split_ifs with h
  · exact ⟨hw0, hh0, hwh, hwf, h.2, h.1, k, su, ex, hs, hk, hbr⟩
  · exact ⟨hw0, hh0, hwh, hwf, hr, hc, k, su, ex, hs, hk, hbr⟩

/-- `ending` preserves the invariant in the `true` family: it opens every
cell without touching `s`, landing in the invariant's escape disjunct. -/
theorem Inv_ending {mf : MineField} (hinv : Inv true mf) : Inv true mf.ending := by
  obtain ⟨hw0, hh0, hwh, hwf, hr, hc, k, su, ex, hs, hk, _⟩ := hinv
  refine ⟨hw0, hh0, hwh, WFGrid_ending hwf, hr, hc, k, su, ex, hs, hk, Or.inr ⟨rfl, ?_⟩⟩
  intro j i hj hi
  rw [ending_gget hwf hj hi, is_o_set_o]

/-- On a board small enough that the packed counter cannot carry into the
flag bits (`w*h < 0x4000`), every reachable state satisfies the inductive
invariant.  The bound is stated explicitly because it is necessary: with
at least 0x4000 cells the counter in the low bits of `s` can carry into
bit 0x4000, and the decomposition below fails.  Every operation preserves
the board dimensions, so the bound transports along the derivation. -/
theorem Reach_Inv : ∀ {b : Bool} {mf : MineField}, Reach b mf →
    mf.w * mf.h < 0x4000 → Inv b mf := by
  intro b mf h
  induction h with
  | init b w h m hw0 hh0 =>
    intro hwh
    exact ⟨hw0, hh0, hwh, WFGrid_new w h, hh0, hw0, 0, false, false, rfl,
      Nat.zero_le _, Or.inl (gridCountP_replicate_zero (by decide) w h).symm⟩
  | click b mf p _ _ ih =>
    intro hsz
    have hd := click_dims mf p
    rw [hd.1, hd.2] at hsz
    exact Inv_click (ih hsz) p
  | up b mf _ ih =>
    intro hsz
    have hd := up_dims mf
    rw [hd.1, hd.2] at hsz
    exact Inv_up (ih hsz)
  | down b mf _ ih =>
    intro hsz
    have hd := down_dims mf
    rw [hd.1, hd.2] at hsz
    exact Inv_down (ih hsz)
  | left b mf _ ih =>
    intro hsz
    have hd := left_dims mf
    rw [hd.1, hd.2] at hsz
    exact Inv_left (ih hsz)
  | right b mf _ ih =>
    intro hsz
    have hd := right_dims mf
    rw [hd.1, hd.2] at hsz
    exact Inv_right (ih hsz)
  | tick b mf _ ih =>
    intro hsz
    have hd := tick_dims mf
    rw [hd.1, hd.2] at hsz
    exact Inv_tick (ih hsz)
  | update_m b mf x y _ ih =>
    intro hsz
    have hd := update_m_dims mf x y
    rw [hd.1, hd.2] at hsz
    exact Inv_update_m (ih hsz) x y
  | ending mf _ ih =>
    intro hsz
    exact Inv_ending (ih hsz)

/-- Claim C3 (amended): on a board with fewer than 0x4000 cells, in every
state reachable from construction by the public operations other than the
end-of-game `ending`, the counter packed in the status word equals the
number of non-mine cells whose opened flag is set.  Both restrictions are
necessary: `ending` (see the counterexample) opens every cell without
touching the counter, and on a board with at least 0x4000 cells the
counter carries into the flag bits, so `s % 0x4000` falls behind the
count of opened non-mine cells. -/
theorem claim3_count_invariant (mf : MineField) (h : Reach false mf)
    (hsz : mf.w * mf.h < 0x4000) :
    openedCount mf = openedNonMine mf := by
  obtain ⟨_, _, hwh, _, _, _, k, su, ex, hs, hk, hbr⟩ := Reach_Inv h hsz
  have hkcnt : k = gridCountP ponB mf.f := by
    rcases hbr with h1 | ⟨hb1, _⟩
    · exact h1
    · exact absurd hb1 Bool.false_ne_true
  have hk14 : k < 0x4000 := Nat.lt_of_le_of_lt hk hwh
  show mf.s % 0x4000 = openedNonMine mf
  rw [hs, stat_mod hk14, hkcnt]
  rfl

theorem claim3_witness :
    openedCount ((MineField.new 3 1 1).click [1, 0, 2]).2
      = openedNonMine ((MineField.new 3 1 1).click [1, 0, 2]).2 :=
  claim3_count_invariant _ (Reach.click false _ [1, 0, 2]
    (Reach.init false 3 1 1 (by decide) (by decide))
    ⟨by decide, by decide, by decide⟩) (by decide)

/-- On a 1-by-3 board (mine in the middle), open the left cell, move right,
explode on the mine, then run `ending`: every cell is force-opened but `s`
is untouched, so the counter reads 1 while 2 non-mine cells are opened.
The claimed invariant fails on a state reachable by the public operations
(which include `ending`). -/
theorem claim3_counterexample :
    openedCount ((((MineField.new 3 1 1).click [1, 0, 2]).2.right.click [1, 0, 2]).2).ending
      ≠ openedNonMine ((((MineField.new 3 1 1).click [1, 0, 2]).2.right.click [1, 0, 2]).2).ending := by
  decide

/-- Claim C9: on a board with `w*h < 0x4000` — the hypothesis the claim
itself carries — in every reachable state the counter in the low bits of
the status word stays below `0x4000`, so it never carries into the flag
bits, and `is_end` agrees with `is_explosion || is_success`. -/
theorem claim9_end_flags (mf : MineField) (h : Reach true mf)
    (hsz : mf.w * mf.h < 0x4000) :
    mf.is_end = (mf.is_explosion || mf.is_success) := by
  obtain ⟨_, _, hwh, _, _, _, k, su, ex, hs, hk, _⟩ := Reach_Inv h hsz
  have hk14 : k < 0x4000 := Nat.lt_of_le_of_lt hk hwh
  show decide (mf.s ≥ 0x4000) = ((mf.s &&& 0x8000 != 0) || (mf.s &&& 0x4000 != 0))
  rw [hs, stat_land_expl hk14 su ex, stat_land_succ hk14 su ex]
  cases su with
  | false =>
    cases ex with
    | false =>
      have h1 : ¬ (0x4000 ≤ statOf k false false) := by
        rw [stat_ge hk14]
        simp
      rw [decide_eq_false h1]
      decide
    | true =>
      rw [decide_eq_true ((stat_ge hk14 false true).mpr (Or.inr rfl))]
      decide
  | true =>
    cases ex with
    | false =>
      rw [decide_eq_true ((stat_ge hk14 true false).mpr (Or.inl rfl))]
      decide
    | true =>
      rw [decide_eq_true ((stat_ge hk14 true true).mpr (Or.inl rfl))]
      decide

theorem claim9_witness :
    (((MineField.new 3 1 1).click [1, 0, 2]).2).is_end
      = ((((MineField.new 3 1 1).click [1, 0, 2]).2).is_explosion
        || (((MineField.new 3 1 1).click [1, 0, 2]).2).is_success) :=
  claim9_end_flags _ (Reach.click true _ [1, 0, 2]
    (Reach.init true 3 1 1 (by decide) (by decide))
    ⟨by decide, by decide, by decide⟩) (by decide)

/-- Claim C7 (amended): on a reachable board that has mines placed
(`s ≠ 0`), has not ended, and whose cursor sits on a closed non-mine cell,
the reveal sets `succeeded` exactly when it brings the board to
`openedCount + m = w*h`.  The claim's "no operation sets succeeded while
the equality does not hold" direction is stated per-click here; the
unrestricted converse "every state satisfying the equality has succeeded
set" is false on exploded boards (see the counterexample).  The board must
also have fewer than 0x4000 cells: on larger boards a flood click can
carry the packed counter into bit 0x4000, making `is_success` read true
while the equality fails, so the equivalence does not survive without the
explicit size hypothesis. -/
theorem claim7_win_detection (mf : MineField) (p : List Nat)
    (hre : Reach false mf) (hsz : mf.w * mf.h < 0x4000)
    (hs0 : mf.s ≠ 0) (hend : mf.s < 0x4000)
    (hcl : mf.is_opened mf.r mf.c = false)
    (hnm : get_v (gget mf.f mf.r mf.c) ≠ 0x0f) :
    ((mf.click p).2.is_success = true ↔
      openedCount (mf.click p).2 + (mf.click p).2.m
        = (mf.click p).2.w * (mf.click p).2.h) := by
  obtain ⟨hw0, hh0, hwh, hwf, hr, hc, k, su, ex, hs, hk, hbr⟩ := Reach_Inv hre hsz
  have hk14 : k < 0x4000 := Nat.lt_of_le_of_lt hk hwh
  have hnend : ¬ (su = true ∨ ex = true) := by
    intro hor
    have h2 := (stat_ge hk14 su ex).mpr hor
    rw [← hs] at h2
    omega
  have hsu : su = false := by
    cases su
    · rfl
    · exact absurd (Or.inl rfl) hnend
  have hex : ex = false := by
    cases ex
    · rfl
    · exact absurd (Or.inr rfl) hnend
  subst hsu
  subst hex
  have hsk : mf.s = k := by
    rw [hs]
    simp [statOf]
  have hwf2 : WFGrid (mf.openCell mf.r mf.c).2.w (mf.openCell mf.r mf.c).2.h
      (mf.openCell mf.r mf.c).2.f :=
    OpenRel_WFGrid (OpenRel_openF (unopenedCnt mf + 1) mf mf.r mf.c) hwf
  have hrel : OpenRel mf (mf.openCell mf.r mf.c).2 :=
    OpenRel_openF (unopenedCnt mf + 1) mf mf.r mf.c
  obtain ⟨hW, hH, hM, hR, hC, hB, hT, hMS, hle, _, _, _⟩ := hrel
  have hcl2 : is_o (gget mf.f mf.r mf.c) = false := hcl
  have hcnt := (openF_count (unopenedCnt mf + 1) mf mf.r mf.c hwf hr hc hcl2).1
  have hoc : mf.openCell mf.r mf.c = openF (unopenedCnt mf + 1) mf mf.r mf.c := rfl
  rw [← hoc] at hcnt
  have hkcnt : k = gridCountP ponB mf.f := by
    rcases hbr with h1 | ⟨hb1, _⟩
    · exact h1
    · exact absurd hb1 Bool.false_ne_true
  have hk2 : k + ((mf.openCell mf.r mf.c).2.s - mf.s) ≤ mf.w * mf.h := by
    have h3 := gridCountP_le hwf2 ponB
    rw [hW, hH] at h3
    omega
  have hk14b : k + ((mf.openCell mf.r mf.c).2.s - mf.s) < 0x4000 :=
    Nat.lt_of_le_of_lt hk2 hwh
  have hs2 : (mf.openCell mf.r mf.c).2.s
      = statOf (k + ((mf.openCell mf.r mf.c).2.s - mf.s)) false false := by
    rw [← stat_add, ← hs]
    omega
  have hplain : statOf (k + ((mf.openCell mf.r mf.c).2.s - mf.s)) false false
      = k + ((mf.openCell mf.r mf.c).2.s - mf.s) := by
    simp [statOf]
  rw [click_start_skip hs0, clickA_open hcl hnm]
  by_cases hbeq : ((mf.openCell mf.r mf.c).2.s + (mf.openCell mf.r mf.c).2.m ==
      (mf.openCell mf.r mf.c).2.w * (mf.openCell mf.r mf.c).2.h) = true
  · rw [if_pos hbeq]
    have h4 : ((mf.openCell mf.r mf.c).2.s ||| 0x4000)
        = statOf (k + ((mf.openCell mf.r mf.c).2.s - mf.s)) true false := by
      conv_lhs => rw [hs2]
      exact stat_lor_succ hk14b false false
    constructor
    · intro _
      show ((mf.openCell mf.r mf.c).2.s ||| 0x4000) % 0x4000 + (mf.openCell mf.r mf.c).2.m
        = (mf.openCell mf.r mf.c).2.w * (mf.openCell mf.r mf.c).2.h
      rw [h4, stat_mod hk14b]
      have h5 := beq_iff_eq.mp hbeq
      omega
    · intro _
      show ((((mf.openCell mf.r mf.c).2.s ||| 0x4000) &&& 0x4000) != 0) = true
      rw [h4, stat_land_succ hk14b true false]
      rfl
  · rw [if_neg hbeq]
    constructor
    · intro h6
      exfalso
      have h7 : (((mf.openCell mf.r mf.c).2.s &&& 0x4000) != 0) = true := h6
      rw [hs2, stat_land_succ hk14b false false] at h7
      simp at h7
    · intro h6
      exfalso
      apply hbeq
      rw [beq_iff_eq]
      have h8 : (mf.openCell mf.r mf.c).2.s % 0x4000 = (mf.openCell mf.r mf.c).2.s := by
        rw [hs2, hplain]
        exact Nat.mod_eq_of_lt hk14b
      have h9 : openedCount (mf.openCell mf.r mf.c).2 + (mf.openCell mf.r mf.c).2.m
          = (mf.openCell mf.r mf.c).2.w * (mf.openCell mf.r mf.c).2.h := h6
      show (mf.openCell mf.r mf.c).2.s + (mf.openCell mf.r mf.c).2.m
          = (mf.openCell mf.r mf.c).2.w * (mf.openCell mf.r mf.c).2.h
      rw [← h8]
      exact h9

theorem claim7_witness :
    ((((MineField.new 3 1 1).click [1, 0, 2]).2.right.right.click [1, 0, 2]).2.is_success = true ↔
      openedCount (((MineField.new 3 1 1).click [1, 0, 2]).2.right.right.click [1, 0, 2]).2 + (((MineField.new 3 1 1).click [1, 0, 2]).2.right.right.click [1, 0, 2]).2.m = (((MineField.new 3 1 1).click [1, 0, 2]).2.right.right.click [1, 0, 2]).2.w * (((MineField.new 3 1 1).click [1, 0, 2]).2.right.right.click [1, 0, 2]).2.h) :=
  claim7_win_detection _ [1, 0, 2]
    (Reach.right false _ (Reach.right false _ (Reach.click false _ [1, 0, 2]
      (Reach.init false 3 1 1 (by decide) (by decide))
      ⟨by decide, by decide, by decide⟩)))
    (by decide) (by decide) (by decide) (by decide) (by decide)

/-- On the 1-by-3 board (mine in the middle): open the left cell, explode
on the mine, then open the right cell.  The final board satisfies
`openedCount + m = w*h` (2 + 1 = 3) yet `succeeded` is false: the equality
does not characterize `succeeded` on boards that have already exploded,
refuting the claim's unrestricted "exactly when". -/
theorem claim7_counterexample :
    openedCount (((((MineField.new 3 1 1).click [1, 0, 2]).2.right.click [1, 0, 2]).2.right.click [1, 0, 2]).2) + (((((MineField.new 3 1 1).click [1, 0, 2]).2.right.click [1, 0, 2]).2.right.click [1, 0, 2]).2).m = (((((MineField.new 3 1 1).click [1, 0, 2]).2.right.click [1, 0, 2]).2.right.click [1, 0, 2]).2).w * (((((MineField.new 3 1 1).click [1, 0, 2]).2.right.click [1, 0, 2]).2.right.click [1, 0, 2]).2).h ∧ (((((MineField.new 3 1 1).click [1, 0, 2]).2.right.click [1, 0, 2]).2.right.click [1, 0, 2]).2).is_success = false := by
  decide

/-! The flood fill opens exactly the connected zero-region plus its border. -/

theorem OpenRel_get_v {mf mf2 : MineField} (hrel : OpenRel mf mf2) (j i : Nat) :
    get_v (gget mf2.f j i) = get_v (gget mf.f j i) := by
  obtain ⟨_, _, _, _, _, _, _, _, _, _, _, hcell⟩ := hrel
  rcases hcell j i with h1 | ⟨_, _, h3⟩
  · rw [h1]
  · rw [h3, get_v_set_o]

theorem OpenRel_opened {mf mf2 : MineField} (hrel : OpenRel mf mf2) {j i : Nat}
    (h : is_o (gget mf.f j i) = true) : is_o (gget mf2.f j i) = true := by
  obtain ⟨_, _, _, _, _, _, _, _, _, _, _, hcell⟩ := hrel
  rcases hcell j i with h1 | ⟨h2, _, _⟩
  · rw [h1]
    exact h
  · rw [h2] at h
    exact absurd h Bool.false_ne_true

theorem ZReach_bounds {w h : Nat} {V : Nat → Nat → Nat} {r c : Nat}
    (hr : r < h) (hc : c < w) :
    ∀ {j i : Nat}, ZReach w h V r c j i → j < h ∧ i < w := by
  intro j i hz
  induction hz with
  | refl => exact ⟨hr, hc⟩
  | step j i j2 i2 hzr hv hmem ihz => exact nbrs_bounds ihz.1 ihz.2 hmem

theorem ZReach_congr {w h : Nat} {V V2 : Nat → Nat → Nat} {r c : Nat}
    (hr : r < h) (hc : c < w)
    (hV : ∀ a b, a < h → b < w → V a b = V2 a b) :
    ∀ {j i : Nat}, ZReach w h V r c j i → ZReach w h V2 r c j i := by
  intro j i hz
  induction hz with
  | refl => exact ZReach.refl
  | step j i j2 i2 hzr hv hmem ihz =>
    have hb := ZReach_bounds hr hc hzr
    exact ZReach.step j i j2 i2 ihz (by rw [← hV j i hb.1 hb.2]; exact hv) hmem

theorem ZReach_trans {w h : Nat} {V : Nat → Nat → Nat} {r c a b : Nat}
    (h1 : ZReach w h V r c a b) :
    ∀ {j i : Nat}, ZReach w h V a b j i → ZReach w h V r c j i := by
  intro j i h2
  induction h2 with
  | refl => exact h1
  | step j i j2 i2 hzr hv hmem ihz => exact ZReach.step j i j2 i2 ihz hv hmem

theorem FloodInvE_mono {mf : MineField} {S S2 : Nat → Nat → Nat → Nat → Prop}
    (hss : ∀ j i a b, S j i a b → S2 j i a b) (hfi : FloodInvE mf S) :
    FloodInvE mf S2 := by
  intro j hj i hi ho hv q hq hnm
  rcases hfi j hj i hi ho hv q hq hnm with h1 | h1
  · exact Or.inl h1
  · exact Or.inr (hss _ _ _ _ h1)

/-- Retire the head of the pending-neighbor exception list once the head
neighbor is known to be opened (or to be a mine, which the invariant never
asks about). -/
theorem FloodInvE_drop_head {mf : MineField} {S : Nat → Nat → Nat → Nat → Prop}
    {r c : Nat} {q : Nat × Nat} {rest : List (Nat × Nat)}
    (hfi : FloodInvE mf (fun j i q1 q2 => S j i q1 q2 ∨
      (j = r ∧ i = c ∧ (q1, q2) ∈ q :: rest)))
    (hq : get_v (gget mf.f q.1 q.2) ≠ 0x0f → is_o (gget mf.f q.1 q.2) = true) :
    FloodInvE mf (fun j i q1 q2 => S j i q1 q2 ∨
      (j = r ∧ i = c ∧ (q1, q2) ∈ rest)) := by
  intro j hj i hi ho hv q2 hq2 hnm2
  rcases hfi j hj i hi ho hv q2 hq2 hnm2 with h1 | h1
  · exact Or.inl h1
  · rcases h1 with hS | ⟨hjr, hic, hmem⟩
    · exact Or.inr (Or.inl hS)
    · have hq2eq : (q2.1, q2.2) = q2 := rfl
      rw [hq2eq] at hmem
      rcases List.mem_cons.mp hmem with hq1 | hq1
      · left
        rw [hq1]
        rw [hq1] at hnm2
        exact hq hnm2
      · exact Or.inr (Or.inr ⟨hjr, hic, by rw [hq2eq]; exact hq1⟩)

/-- Opening one closed cell lowers the closed-cell count by one. -/
theorem cnt_pnoB_open {mf : MineField} {r c : Nat} (hwf : WFGrid mf.w mf.h mf.f)
    (hr : r < mf.h) (hc : c < mf.w) (hcl : is_o (gget mf.f r c) = false) :
    gridCountP pnoB (gset mf.f r c (set_o (gget mf.f r c) false)) + 1
      = gridCountP pnoB mf.f := by
  have h1 := gridCountP_gset pnoB hwf hr hc (set_o (gget mf.f r c) false)
  rw [if_pos (pnoB_closed hcl),
    if_neg (show ¬ (pnoB (set_o (gget mf.f r c) false) = true) from by
      rw [pnoB_open]
      exact Bool.false_ne_true)] at h1
  omega

/-- The flood fill, run with enough fuel on a closed zero-or-numbered
non-mine target of a board satisfying the flood invariant (with exception
set `S`), opens its target and re-establishes the invariant: every opened
zero cell of the result has all of its non-mine neighbors opened (up to
`S`).  The proof walks the neighbor `foldl` with the still-unprocessed
neighbors of the target as extra exceptions, retiring them one by one. -/
theorem openF_floodE : ∀ (fuel : Nat) (mf : MineField) (r c : Nat)
    (S : Nat → Nat → Nat → Nat → Prop),
    WFGrid mf.w mf.h mf.f → r < mf.h → c < mf.w →
    is_o (gget mf.f r c) = false → get_v (gget mf.f r c) ≠ 0x0f →
    gridCountP pnoB mf.f + 1 ≤ fuel → FloodInvE mf S →
    is_o (gget (openF fuel mf r c).2.f r c) = true ∧
      FloodInvE (openF fuel mf r c).2 S := by
  intro fuel
  induction fuel with
  | zero =>
    intro mf r c S hwf hr hc hcl hnm hfuel hfi
    exact absurd hfuel (by omega)
  | succ fuel ih =>
    intro mf r c S hwf hr hc hcl hnm hfuel hfi
    rw [openF_succ]
    rw [if_neg (show ¬ (is_mine (get_v (gget mf.f r c)) = true) from
      fun hmt => hnm (beq_iff_eq.mp hmt))]
    set mf1 : MineField :=
      { mf with f := gset mf.f r c (set_o (gget mf.f r c) false), s := mf.s + 1 } with hmf1
    have hwf1 : WFGrid mf1.w mf1.h mf1.f := WFGrid_gset hwf _ _ _
    have hrel1 : OpenRel mf mf1 := OpenRel_mf1 hnm
    have hVeq1 := OpenRel_get_v hrel1
    have hM1o : is_o (gget mf1.f r c) = true := by
      show is_o (gget (gset mf.f r c (set_o (gget mf.f r c) false)) r c) = true
      rw [gget_gset_self hwf hr hc, is_o_set_o]
    have hcnt1 : gridCountP pnoB mf1.f + 1 = gridCountP pnoB mf.f := by
      show gridCountP pnoB (gset mf.f r c (set_o (gget mf.f r c) false)) + 1
        = gridCountP pnoB mf.f
      exact cnt_pnoB_open hwf hr hc hcl
    have hs1 : mf1.s = mf.s + 1 := rfl
    by_cases hz : get_v (gget mf.f r c) = 0
    · rw [if_pos hz]
      have hfi1 : FloodInvE mf1 (fun j i q1 q2 => S j i q1 q2 ∨
          (j = r ∧ i = c ∧ (q1, q2) ∈ nbrs mf.w mf.h r c)) := by
        intro j hj i hi ho hv q hq hnmq
        have hj2 : j < mf.h := hj
        have hi2 : i < mf.w := hi
        have hq2 : q ∈ nbrs mf.w mf.h j i := hq
        by_cases hji : j = r ∧ i = c
        · refine Or.inr (Or.inr ⟨hji.1, hji.2, ?_⟩)
          have hq3 : (q.1, q.2) = q := rfl
          rw [hq3]
          rw [hji.1, hji.2] at hq2
          exact hq2
        · have hne : r ≠ j ∨ c ≠ i := by
            rcases Decidable.em (r = j) with h1 | h1
            · exact Or.inr (fun h2 => hji ⟨h1.symm, h2.symm⟩)
            · exact Or.inl h1
          have ho2 : is_o (gget mf.f j i) = true := by
            have heq : gget mf1.f j i = gget mf.f j i := by
              show gget (gset mf.f r c (set_o (gget mf.f r c) false)) j i = gget mf.f j i
              exact gget_gset_ne hne _
            rw [← heq]
            exact ho
          have hv2 : get_v (gget mf.f j i) = 0 := by
            rw [← hVeq1 j i]
            exact hv
          have hnmq2 : get_v (gget mf.f q.1 q.2) ≠ 0x0f := by
            rw [← hVeq1 q.1 q.2]
            exact hnmq
          rcases hfi j hj2 i hi2 ho2 hv2 q hq2 hnmq2 with h1 | h1
          · exact Or.inl (OpenRel_opened hrel1 h1)
          · exact Or.inr (Or.inl h1)
      have hfold : ∀ (l : List (Nat × Nat)), (∀ x ∈ l, x ∈ nbrs mf.w mf.h r c) →
          ∀ acc, OpenRel mf1 acc →
          acc.s + gridCountP pnoB acc.f = mf1.s + gridCountP pnoB mf1.f →
          FloodInvE acc (fun j i q1 q2 => S j i q1 q2 ∨
            (j = r ∧ i = c ∧ (q1, q2) ∈ l)) →
          OpenRel mf1 (l.foldl (openStep fuel) acc) ∧
            FloodInvE (l.foldl (openStep fuel) acc) S := by
        intro l
        induction l with
        | nil =>
          intro _ acc hrel hcnt hfiacc
          refine ⟨hrel, FloodInvE_mono (fun j i a b hsab => ?_) hfiacc⟩
          rcases hsab with h1 | h1
          · exact h1
          · exact absurd h1.2.2 (List.not_mem_nil _)
        | cons q rest ihl =>
          intro hsub acc hrel hcnt hfiacc
          rw [List.foldl_cons]
          have hqmem := hsub q (List.mem_cons_self q rest)
          have hqb := nbrs_bounds hr hc
            (show (q.1, q.2) ∈ nbrs mf.w mf.h r c from hqmem)
          have hwfacc : WFGrid acc.w acc.h acc.f := OpenRel_WFGrid hrel hwf1
          have haW : acc.w = mf1.w := hrel.1
          have haH : acc.h = mf1.h := hrel.2.1
          have hales : mf1.s ≤ acc.s := hrel.2.2.2.2.2.2.2.2.1
          by_cases hqo : acc.is_opened q.1 q.2 = true
          · rw [show openStep fuel acc q = acc from by unfold openStep; rw [if_pos hqo]]
            refine ihl (fun x hx => hsub x (List.mem_cons_of_mem q hx)) acc hrel hcnt ?_
            exact FloodInvE_drop_head hfiacc (fun _ => hqo)
          · have hqo2 : acc.is_opened q.1 q.2 = false := by
              rwa [Bool.not_eq_true] at hqo
            rw [show openStep fuel acc q = (openF fuel acc q.1 q.2).2 from by
              unfold openStep; rw [if_neg hqo]]
            by_cases hqm : get_v (gget acc.f q.1 q.2) = 0x0f
            · rw [openF_mine_any hqm]
              refine ihl (fun x hx => hsub x (List.mem_cons_of_mem q hx)) acc hrel hcnt ?_
              exact FloodInvE_drop_head hfiacc (fun h15 => absurd hqm h15)
            · have hq1h : q.1 < acc.h := by rw [haH]; exact hqb.1
              have hq2w : q.2 < acc.w := by rw [haW]; exact hqb.2
              have hfuel2 : gridCountP pnoB acc.f + 1 ≤ fuel := by omega
              have hres := ih acc q.1 q.2 (fun j i q1 q2 => S j i q1 q2 ∨
                  (j = r ∧ i = c ∧ (q1, q2) ∈ q :: rest)) hwfacc hq1h hq2w hqo2 hqm
                hfuel2 hfiacc
              have hrel3 : OpenRel mf1 (openF fuel acc q.1 q.2).2 :=
                OpenRel_trans hrel (OpenRel_openF fuel acc q.1 q.2)
              have hcnt2 := (openF_count fuel acc q.1 q.2 hwfacc hq1h hq2w hqo2).2
              refine ihl (fun x hx => hsub x (List.mem_cons_of_mem q hx))
                (openF fuel acc q.1 q.2).2 hrel3 (by omega) ?_
              exact FloodInvE_drop_head hres.2 (fun _ => hres.1)
      have hres := hfold (nbrs mf.w mf.h r c) (fun x hx => hx) mf1
        (OpenRel_refl mf1) rfl hfi1
      constructor
      · show is_o (gget (List.foldl (openStep fuel) mf1 (nbrs mf.w mf.h r c)).f r c) = true
        exact OpenRel_opened hres.1 hM1o
      · show FloodInvE (List.foldl (openStep fuel) mf1 (nbrs mf.w mf.h r c)) S
        exact hres.2
    · rw [if_neg hz]
      constructor
      · show is_o (gget mf1.f r c) = true
        exact hM1o
      · show FloodInvE mf1 S
        intro j hj i hi ho hv q hq hnmq
        by_cases hji : j = r ∧ i = c
        · exfalso
          obtain ⟨rfl, rfl⟩ := hji
          apply hz
          rw [← hVeq1 j i]
          exact hv
        · have hne : r ≠ j ∨ c ≠ i := by
            rcases Decidable.em (r = j) with h1 | h1
            · exact Or.inr (fun h2 => hji ⟨h1.symm, h2.symm⟩)
            · exact Or.inl h1
          have ho2 : is_o (gget mf.f j i) = true := by
            have heq : gget mf1.f j i = gget mf.f j i := by
              show gget (gset mf.f r c (set_o (gget mf.f r c) false)) j i = gget mf.f j i
              exact gget_gset_ne hne _
            rw [← heq]
            exact ho
          have hv2 : get_v (gget mf.f j i) = 0 := by
            rw [← hVeq1 j i]
            exact hv
          have hnmq2 : get_v (gget mf.f q.1 q.2) ≠ 0x0f := by
            rw [← hVeq1 q.1 q.2]
            exact hnmq
          rcases hfi j hj i hi ho2 hv2 q hq hnmq2 with h1 | h1
          · exact Or.inl (OpenRel_opened hrel1 h1)
          · exact Or.inr h1

/-- Soundness of the flood fill: any cell opened by `openF` was already
opened, or is reachable from the target through the zero-region (with the
last step allowed into the numbered border) and is not a mine. -/
theorem openF_sound : ∀ (fuel : Nat) (mf : MineField) (r c : Nat),
    WFGrid mf.w mf.h mf.f → r < mf.h → c < mf.w →
    ∀ j i, is_o (gget (openF fuel mf r c).2.f j i) = true →
      is_o (gget mf.f j i) = true ∨
        (ZReach mf.w mf.h (fun a b => get_v (gget mf.f a b)) r c j i ∧
          get_v (gget mf.f j i) ≠ 0x0f) := by
  intro fuel
  induction fuel with
  | zero => intro mf r c _ _ _ j i hop; exact Or.inl hop
  | succ fuel ih =>
    intro mf r c hwf hr hc j i hop
    rw [openF_succ] at hop
    by_cases hm : is_mine (get_v (gget mf.f r c)) = true
    · rw [if_pos hm] at hop
      exact Or.inl hop
    · rw [if_neg hm] at hop
      have hnm : get_v (gget mf.f r c) ≠ 0x0f := fun hEq => hm (by rw [hEq]; rfl)
      have hB0 : ∀ a b,
          is_o (gget (gset mf.f r c (set_o (gget mf.f r c) false)) a b) = true →
          is_o (gget mf.f a b) = true ∨
            (ZReach mf.w mf.h (fun a2 b2 => get_v (gget mf.f a2 b2)) r c a b ∧
              get_v (gget mf.f a b) ≠ 0x0f) := by
        intro a b hopn
        by_cases hpre : is_o (gget mf.f a b) = true
        · exact Or.inl hpre
        · rcases eq_or_ne r a with hj1 | hj1
          · rcases eq_or_ne c b with hi1 | hi1
            · subst hj1
              subst hi1
              exact Or.inr ⟨ZReach.refl, hnm⟩
            · rw [gget_gset_ne (Or.inr hi1)] at hopn
              exact absurd hopn hpre
          · rw [gget_gset_ne (Or.inl hj1)] at hopn
            exact absurd hopn hpre
      by_cases hz : get_v (gget mf.f r c) = 0
      · rw [if_pos hz] at hop
        set mf1 : MineField :=
          { mf with f := gset mf.f r c (set_o (gget mf.f r c) false), s := mf.s + 1 } with hmf1
        have hrel1 : OpenRel mf mf1 := OpenRel_mf1 hnm
        have hfold : ∀ (l : List (Nat × Nat)), (∀ x ∈ l, x ∈ nbrs mf.w mf.h r c) →
            ∀ acc, OpenRel mf acc →
            (∀ a b, is_o (gget acc.f a b) = true →
              is_o (gget mf.f a b) = true ∨
                (ZReach mf.w mf.h (fun a2 b2 => get_v (gget mf.f a2 b2)) r c a b ∧
                  get_v (gget mf.f a b) ≠ 0x0f)) →
            ∀ a b, is_o (gget (l.foldl (openStep fuel) acc).f a b) = true →
              is_o (gget mf.f a b) = true ∨
                (ZReach mf.w mf.h (fun a2 b2 => get_v (gget mf.f a2 b2)) r c a b ∧
                  get_v (gget mf.f a b) ≠ 0x0f) := by
          intro l
          induction l with
          | nil => intro _ acc _ hB a b hopn; exact hB a b hopn
          | cons q rest ihl =>
            intro hsub acc hrel hB a b hopn
            rw [List.foldl_cons] at hopn
            have hqmem := hsub q (List.mem_cons_self q rest)
            have hqb := nbrs_bounds hr hc
              (show (q.1, q.2) ∈ nbrs mf.w mf.h r c from hqmem)
            refine ihl (fun x hx => hsub x (List.mem_cons_of_mem q hx))
              (openStep fuel acc q) ?_ ?_ a b hopn
            · unfold openStep
              split
              · exact hrel
              · exact OpenRel_trans hrel (OpenRel_openF fuel acc q.1 q.2)
            · intro a2 b2 hopn2
              unfold openStep at hopn2
              by_cases hqo : acc.is_opened q.1 q.2 = true
              · rw [if_pos hqo] at hopn2
                exact hB a2 b2 hopn2
              · rw [if_neg hqo] at hopn2
                have hawf : WFGrid acc.w acc.h acc.f := OpenRel_WFGrid hrel hwf
                have hVeq : ∀ a3 b3, get_v (gget acc.f a3 b3) = get_v (gget mf.f a3 b3) :=
                  OpenRel_get_v hrel
                have haW : acc.w = mf.w := hrel.1
                have haH : acc.h = mf.h := hrel.2.1
                have hq1h : q.1 < acc.h := by rw [haH]; exact hqb.1
                have hq2w : q.2 < acc.w := by rw [haW]; exact hqb.2
                rcases ih acc q.1 q.2 hawf hq1h hq2w a2 b2 hopn2 with h1 | ⟨hzr, hv15⟩
                · exact hB a2 b2 h1
                · rw [haW, haH] at hzr
                  have hzr2 := ZReach_congr hqb.1 hqb.2
                    (fun a3 b3 _ _ => hVeq a3 b3) hzr
                  have hfirst : ZReach mf.w mf.h
                      (fun a3 b3 => get_v (gget mf.f a3 b3)) r c q.1 q.2 :=
                    ZReach.step r c q.1 q.2 ZReach.refl hz hqmem
                  refine Or.inr ⟨ZReach_trans hfirst hzr2, ?_⟩
                  rw [← hVeq a2 b2]
                  exact hv15
        have hop2 : is_o (gget ((nbrs mf.w mf.h r c).foldl (openStep fuel) mf1).f j i)
            = true := hop
        exact hfold (nbrs mf.w mf.h r c) (fun x hx => hx) mf1 hrel1
          (fun a b h => hB0 a b h) j i hop2
      · rw [if_neg hz] at hop
        exact hB0 j i hop

/-- A board with no opened zero-valued cell satisfies the flood invariant
vacuously. -/
theorem FloodInv_of_no_zero_open (mf : MineField)
    (h : ∀ j, j < mf.h → ∀ i, i < mf.w →
      (is_o (gget mf.f j i) = false ∨ get_v (gget mf.f j i) ≠ 0)) :
    FloodInv mf := by
  intro j hj i hi ho hv
  rcases h j hj i hi with h1 | h1
  · rw [h1] at ho
    exact absurd ho Bool.false_ne_true
  · exact absurd hv h1

/-- A fully opened board satisfies the flood invariant. -/
theorem allOpened_FloodInv {mf : MineField}
    (hall : ∀ j i, j < mf.h → i < mf.w → is_o (gget mf.f j i) = true) :
    FloodInv mf := by
  intro j hj i hi _ _ q hq _
  have hb := nbrs_bounds hj hi (show (q.1, q.2) ∈ nbrs mf.w mf.h j i from hq)
  exact Or.inl (hall q.1 q.2 hb.1 hb.2)

/-- The reveal body preserves the flood invariant: a flood fill always
finishes the neighborhood of every zero cell it opens.  No bound on the
board size is needed. -/
theorem clickA_FloodInv {mf : MineField} (hwf : WFGrid mf.w mf.h mf.f)
    (hr : mf.r < mf.h) (hc : mf.c < mf.w)
    (hfi : FloodInv mf) : FloodInv mf.clickAfterStart.2 := by
  by_cases hop : mf.is_opened mf.r mf.c = true
  · rw [clickA_opened hop]
    exact hfi
  · have hop2 : mf.is_opened mf.r mf.c = false := by rwa [Bool.not_eq_true] at hop
    by_cases hm : get_v (gget mf.f mf.r mf.c) = 0x0f
    · rw [clickA_mine hop2 hm]
      exact hfi
    · rw [clickA_open hop2 hm]
      have hfuel : gridCountP pnoB mf.f + 1 ≤ unopenedCnt mf + 1 := by
        have h1 : unopenedCnt mf = gridCountP pnoB mf.f := rfl
        omega
      have hpost := (openF_floodE (unopenedCnt mf + 1) mf mf.r mf.c
        (fun _ _ _ _ => False) hwf hr hc hop2 hm hfuel hfi).2
      by_cases hbeq : ((mf.openCell mf.r mf.c).2.s + (mf.openCell mf.r mf.c).2.m ==
          (mf.openCell mf.r mf.c).2.w * (mf.openCell mf.r mf.c).2.h) = true
      · rw [if_pos hbeq]
        exact hpost
      · rw [if_neg hbeq]
        exact hpost

/-- Every reachable state satisfies the flood invariant. -/
theorem Reach_FloodInv : ∀ {b : Bool} {mf : MineField}, Reach b mf → FloodInv mf := by
  intro b mf h
  induction h with
  | init b w h m hw0 hh0 =>
    intro j hj i hi ho hv
    have ho2 : is_o (gget (List.replicate h (List.replicate w 0)) j i) = true := ho
    rw [gget_replicate] at ho2
    exact absurd ho2 (by decide)
  | click b mf p hre hperm ih =>
    have hg := Reach_GInv hre
    unfold MineField.click
    by_cases hs0 : (mf.s == 0) = true
    · rw [if_pos hs0]
      refine clickA_FloodInv (WFGrid_start hg.2.2.1 p) hg.2.2.2.1 hg.2.2.2.2 ?_
      refine FloodInv_of_no_zero_open _ (fun j hj i hi => Or.inl ?_)
      exact start_unopened hg.2.2.1 p hj hi
    · rw [if_neg hs0]
      exact clickA_FloodInv hg.2.2.1 hg.2.2.2.1 hg.2.2.2.2 ih
  | up b mf hre ih =>
    unfold MineField.up
    split_ifs <;> exact ih
  | down b mf hre ih =>
    unfold MineField.down
    split_ifs <;> exact ih
  | left b mf hre ih =>
    unfold MineField.left
    split_ifs <;> exact ih
  | right b mf hre ih =>
    unfold MineField.right
    split_ifs <;> exact ih
  | tick b mf hre ih =>
    show FloodInv (if mf.t + 1 = mf.b / 2 then { mf with t := mf.t + 1 }
      else if mf.t + 1 ≥ mf.b then { mf with t := 0 } else { mf with t := mf.t + 1 })
    split_ifs <;> exact ih
  | update_m b mf x y hre ih =>
    unfold MineField.update_m
    split_ifs <;> exact ih
  | ending mf hre ih =>
    have hg := Reach_GInv hre
    refine allOpened_FloodInv ?_
    intro j i hj hi
    rw [ending_gget hg.2.2.1 hj hi, is_o_set_o]

/-- Claim C5: on a reachable board with mines placed (`s ≠ 0`), a reveal
of a closed zero-valued cell opens exactly the cells that were already
opened plus the 8-connected zero-region of the target together with its
bordering numbered cells (the `ZReach` closure, mines excluded), and the
opened flag of every mine cell is left exactly as it was.  The property
is independent of the status counter, so it holds on reachable boards of
every size. -/
theorem claim5_flood_fill {b : Bool} (mf : MineField) (p : List Nat)
    (hre : Reach b mf) (hs0 : mf.s ≠ 0)
    (hcl : mf.is_opened mf.r mf.c = false)
    (hz : get_v (gget mf.f mf.r mf.c) = 0) :
    ∀ j i,
      (is_o (gget (mf.click p).2.f j i) = true ↔
        (is_o (gget mf.f j i) = true ∨
          (ZReach mf.w mf.h (fun a b => get_v (gget mf.f a b)) mf.r mf.c j i ∧
            get_v (gget mf.f j i) ≠ 0x0f))) ∧
      (get_v (gget mf.f j i) = 0x0f →
        is_o (gget (mf.click p).2.f j i) = is_o (gget mf.f j i)) := by
  obtain ⟨_, _, hwf, hr, hc⟩ := Reach_GInv hre
  have hfi : FloodInv mf := Reach_FloodInv hre
  have hnm : get_v (gget mf.f mf.r mf.c) ≠ 0x0f := by
    rw [hz]
    decide
  have hcl2 : is_o (gget mf.f mf.r mf.c) = false := hcl
  have hpostf : (mf.click p).2.f = (openF (unopenedCnt mf + 1) mf mf.r mf.c).2.f := by
    rw [click_start_skip hs0, clickA_open hcl hnm]
    by_cases hbeq : ((mf.openCell mf.r mf.c).2.s + (mf.openCell mf.r mf.c).2.m ==
        (mf.openCell mf.r mf.c).2.w * (mf.openCell mf.r mf.c).2.h) = true
    · rw [if_pos hbeq]
      rfl
    · rw [if_neg hbeq]
      rfl
  have hfuel : gridCountP pnoB mf.f + 1 ≤ unopenedCnt mf + 1 := by
    have h1 : unopenedCnt mf = gridCountP pnoB mf.f := rfl
    omega
  have hflood := openF_floodE (unopenedCnt mf + 1) mf mf.r mf.c
    (fun _ _ _ _ => False) hwf hr hc hcl2 hnm hfuel hfi
  have hrel : OpenRel mf (openF (unopenedCnt mf + 1) mf mf.r mf.c).2 :=
    OpenRel_openF (unopenedCnt mf + 1) mf mf.r mf.c
  have hW : (openF (unopenedCnt mf + 1) mf mf.r mf.c).2.w = mf.w := hrel.1
  have hH : (openF (unopenedCnt mf + 1) mf mf.r mf.c).2.h = mf.h := hrel.2.1
  have hVeq := OpenRel_get_v hrel
  have hcompl : ∀ j i,
      ZReach mf.w mf.h (fun a b => get_v (gget mf.f a b)) mf.r mf.c j i →
      get_v (gget mf.f j i) ≠ 0x0f →
      is_o (gget (openF (unopenedCnt mf + 1) mf mf.r mf.c).2.f j i) = true := by
    intro j i hzr
    induction hzr with
    | refl => intro _; exact hflood.1
    | step j i j2 i2 hzr2 hv hmem ihz =>
      intro _
      have hvji : get_v (gget mf.f j i) = 0 := hv
      have hji_open : is_o (gget (openF (unopenedCnt mf + 1) mf mf.r mf.c).2.f j i)
          = true := ihz (by rw [hvji]; decide)
      have hb := ZReach_bounds hr hc hzr2
      have hjlt : j < (openF (unopenedCnt mf + 1) mf mf.r mf.c).2.h := by
        rw [hH]
        exact hb.1
      have hilt : i < (openF (unopenedCnt mf + 1) mf mf.r mf.c).2.w := by
        rw [hW]
        exact hb.2
      have hvpost : get_v (gget (openF (unopenedCnt mf + 1) mf mf.r mf.c).2.f j i)
          = 0 := by
        rw [hVeq j i]
        exact hvji
      have hmem2 : (j2, i2) ∈ nbrs (openF (unopenedCnt mf + 1) mf mf.r mf.c).2.w
          (openF (unopenedCnt mf + 1) mf mf.r mf.c).2.h j i := by
        rw [hW, hH]
        exact hmem
      have hnmpost : get_v (gget (openF (unopenedCnt mf + 1) mf mf.r mf.c).2.f
          (j2, i2).1 (j2, i2).2) ≠ 0x0f := by
        rw [hVeq]
        exact (by assumption : get_v (gget mf.f j2 i2) ≠ 0x0f)
      rcases hflood.2 j hjlt i hilt hji_open hvpost (j2, i2) hmem2 hnmpost with h1 | h1
      · exact h1
      · exact h1.elim
  intro j i
  constructor
  · constructor
    · intro hpost
      rw [hpostf] at hpost
      exact openF_sound (unopenedCnt mf + 1) mf mf.r mf.c hwf hr hc j i hpost
    · intro hcase
      rw [hpostf]
      rcases hcase with h1 | ⟨h2, h3⟩
      · exact OpenRel_opened hrel h1
      · exact hcompl j i h2 h3
  · intro hm15
    have hback : is_o (gget (mf.click p).2.f j i) = true →
        is_o (gget mf.f j i) = true := by
      intro hpost
      rw [hpostf] at hpost
      rcases openF_sound (unopenedCnt mf + 1) mf mf.r mf.c hwf hr hc j i hpost
        with h1 | ⟨_, h3⟩
      · exact h1
      · exact absurd hm15 h3
    cases hpo : is_o (gget (mf.click p).2.f j i) with
    | true => rw [hback hpo]
    | false =>
      cases hpr : is_o (gget mf.f j i) with
      | true =>
        have hpost2 := OpenRel_opened hrel hpr
        rw [← hpostf] at hpost2
        rw [hpo] at hpost2
        exact absurd hpost2 Bool.false_ne_true
      | false => rfl

theorem claim5_witness :
    (is_o (gget ((((MineField.new 5 1 1).click [0, 1, 2, 3, 4]).2.right.right.right.click [0]).2).f 0 4) = true ↔
        (is_o (gget ((MineField.new 5 1 1).click [0, 1, 2, 3, 4]).2.right.right.right.f 0 4) = true ∨
          (ZReach ((MineField.new 5 1 1).click [0, 1, 2, 3, 4]).2.right.right.right.w ((MineField.new 5 1 1).click [0, 1, 2, 3, 4]).2.right.right.right.h
            (fun a b => get_v (gget ((MineField.new 5 1 1).click [0, 1, 2, 3, 4]).2.right.right.right.f a b)) ((MineField.new 5 1 1).click [0, 1, 2, 3, 4]).2.right.right.right.r ((MineField.new 5 1 1).click [0, 1, 2, 3, 4]).2.right.right.right.c 0 4 ∧
            get_v (gget ((MineField.new 5 1 1).click [0, 1, 2, 3, 4]).2.right.right.right.f 0 4) ≠ 0x0f))) ∧
      (get_v (gget ((MineField.new 5 1 1).click [0, 1, 2, 3, 4]).2.right.right.right.f 0 4) = 0x0f →
        is_o (gget ((((MineField.new 5 1 1).click [0, 1, 2, 3, 4]).2.right.right.right.click [0]).2).f 0 4) = is_o (gget ((MineField.new 5 1 1).click [0, 1, 2, 3, 4]).2.right.right.right.f 0 4)) :=
  claim5_flood_fill (((MineField.new 5 1 1).click [0, 1, 2, 3, 4]).2.right.right.right) [0]
    (Reach.right false _ (Reach.right false _ (Reach.right false _
      (Reach.click false _ [0, 1, 2, 3, 4]
        (Reach.init false 5 1 1 (by decide) (by decide))
        ⟨by decide, by decide, by decide⟩))))
    (by decide) (by decide) (by decide) 0 4

end Minefield
